import Mathlib

/-!
Verification of the rshell remote-shell core (src/rshell/rshell.py).

This file shallowly embeds the pure / deterministic parts of the program
that the specification's claims are about:

* the ack-paced file-transfer sub-protocol
  (`send_file_to_remote`, `send_file_to_host`, `recv_file_from_host`,
  `recv_file_from_remote`, lines 552-687),
* path normalization (`resolve_path`, lines 221-243),
* virtual-filesystem routing (`get_dev_and_path` / `Device.is_root_path`,
  lines 246-271 and 931-937),
* the device registry (`add_device` / `find_device_by_name`, lines 96-126),
* `get_stat` (lines 405-421), `remove_file` / `rm` (lines 466-489),
* the control flow of `Device.remote` (lines 949-983).

Byte strings are modelled as `List Nat` (each element a byte value),
Python strings as `List Char`.  Machine integers do not overflow in any of
the embedded code paths (all arithmetic is on small nonnegative counts),
so plain `Nat` is used.
-/

/-! ## Hex codec (binascii.hexlify / ubinascii.unhexlify)

The transfer protocol hex-encodes payload bytes when the board lacks
binary-transparent stdio (`HAS_BUFFER = False`).  `binascii.hexlify`
renders each byte as two lowercase hex ASCII digits. -/

/-- One hex digit (value `n < 16`) as its lowercase ASCII code:
`0`-`9` are 48-57, `a`-`f` are 97-102. -/
def toHexDigit (n : Nat) : Nat :=
  if n < 10 then 48 + n else 87 + n

/-- ASCII code of a hex digit back to its value (inverse of `toHexDigit`
on valid digits). -/
def fromHexDigit (c : Nat) : Nat :=
  if 97 ≤ c then c - 87 else c - 48

/-- Model of `binascii.hexlify`: each byte becomes two hex-digit bytes. -/
def hexlify : List Nat → List Nat
  | [] => []
  | b :: rest => toHexDigit (b / 16) :: toHexDigit (b % 16) :: hexlify rest

/-- Model of `ubinascii.unhexlify`: consecutive pairs of hex-digit bytes
become one byte.  (On an odd-length input the real function raises; the
embedded transfer code only applies it to even-length chunks.) -/
def unhexlify : List Nat → List Nat
  | c1 :: c2 :: rest => (fromHexDigit c1 * 16 + fromHexDigit c2) :: unhexlify rest
  | _ => []

/-! ## Chunking arithmetic of the senders

Both senders (`send_file_to_remote`, line 600, and `send_file_to_host`,
line 658) run the same loop: while `bytes_remaining > 0`, read
`read_size = min(bytes_remaining, buf_size)` payload bytes and emit them
(hexlified when `HAS_BUFFER` is false), where `buf_size` is
`BUFFER_SIZE` in binary mode and `BUFFER_SIZE // 2` in hex mode.

The recursion is written with an explicit fuel argument equal to the
number of remaining bytes, which bounds the number of loop iterations as
long as `buf > 0`; when `buf = 0` and bytes remain, the source loop never
terminates (callers model that case as `none`). -/

/-- Sizes of the successive chunks taken from `rem` remaining bytes with
per-iteration bound `buf` (the sender's and receivers' common
`read_size = min(bytes_remaining, buf_size)` sequence). -/
def chunkSizesGo (buf : Nat) : Nat → Nat → List Nat
  | 0, _ => []
  | fuel + 1, rem =>
    if rem = 0 then []
    else min rem buf :: chunkSizesGo buf fuel (rem - min rem buf)

/-- Chunk-size list for `rem` remaining bytes; fuel `rem` suffices when
`buf > 0`. -/
def chunkSizes (buf : Nat) (rem : Nat) : List Nat :=
  chunkSizesGo buf rem rem

/-- The successive `src_file.read(read_size)` results of a sender:
`bs` split into pieces of at most `buf` bytes. -/
def splitChunksGo (buf : Nat) : Nat → List Nat → List (List Nat)
  | 0, _ => []
  | fuel + 1, bs =>
    if bs = [] then []
    else bs.take buf :: splitChunksGo buf fuel (bs.drop buf)

/-- Payload chunks a sender reads from the file `bs`. -/
def splitChunks (buf : Nat) (bs : List Nat) : List (List Nat) :=
  splitChunksGo buf bs.length bs

/-- Per-iteration payload read bound of the senders:
`BUFFER_SIZE` when `HAS_BUFFER`, else `BUFFER_SIZE // 2`
(rshell.py lines 606-609 and 665-668). -/
def sendPayloadBuf (hasBuffer : Bool) (bufferSize : Nat) : Nat :=
  if hasBuffer then bufferSize else bufferSize / 2

/-- On-wire encoding of one payload chunk: the chunk itself in binary
mode, its hexlification in hex mode (lines 614-617 and 672-675). -/
def encodeChunk (hasBuffer : Bool) (c : List Nat) : List Nat :=
  if hasBuffer then c else hexlify c

/-- The sequence of on-wire chunks a sender writes for file `B`
(each followed by a wait for one ACK byte).  Models the sending loops of
`send_file_to_remote` and `send_file_to_host`.  `none` models the case
`sendPayloadBuf = 0` with a nonempty file, where the source loop makes no
progress and never terminates. -/
def sendFileWire (hasBuffer : Bool) (bufferSize : Nat) (B : List Nat) :
    Option (List (List Nat)) :=
  if sendPayloadBuf hasBuffer bufferSize = 0 ∧ B ≠ [] then none
  else some ((splitChunks (sendPayloadBuf hasBuffer bufferSize) B).map
    (encodeChunk hasBuffer))

/-! ## Receiver loops

Both receivers (`recv_file_from_host`, line 552, and
`recv_file_from_remote`, line 629) run the same double loop: the outer
loop takes `read_size = min(bytes_remaining, BUFFER_SIZE)` wire bytes per
chunk (`bytes_remaining` is doubled up-front in hex mode, lines 570-571
and 634-635), the inner loop reassembles a chunk from partial reads into
`write_buf` via the slice assignment
`write_buf[buf_index:bytes_read] = read_buf[0:bytes_read]`
(lines 585 and 646), then writes `write_buf[0:read_size]` to the
destination (unhexlified in hex mode) and sends one ACK byte. -/

/-- Python bytearray slice assignment `w[i:k] = d` where `k = d.length`:
the region `[i, max i k)` is replaced by `d` (the bytearray grows when
the replacement is longer than the replaced region).  Faithful for
`i ≤ w.length` and `k ≤ w.length`, which the receiver loops maintain. -/
def sliceAssign (w : List Nat) (i : Nat) (d : List Nat) : List Nat :=
  w.take i ++ d ++ w.drop (max i d.length)

/-- The receiver's inner reassembly loop: `ps` is the list of sizes of
the successive partial reads (`bytes_read` values), `data` the stream of
available wire bytes, `w` the current `write_buf`, `i` the current
`buf_index`.  A zero-sized read leaves the state unchanged
(the `if bytes_read > 0` guard, lines 584 and 645). -/
def applyPieces : List Nat → List Nat → List Nat → Nat → List Nat
  | [], _, w, _ => w
  | k :: ks, data, w, i =>
    applyPieces ks (data.drop k)
      (if k = 0 then w else sliceAssign w i (data.take k)) (i + k)

/-- Composition of a sender and a receiver under the ACK pacing of the
protocol.  `sender` is the list of on-wire chunks the sender still has to
write (it writes one, then blocks until it reads an ACK; the receiver
sends one ACK at the end of each of its own chunks, so at most one new
sender chunk becomes available per receiver chunk).  `recv` pairs each
receiver `read_size` with the partial-read schedule of its inner loop,
`pending` is the sent-but-unconsumed wire data, `w` the receiver's
persistent `write_buf`.  The result is the list of
`write_buf[0:read_size]` chunks the receiver writes out, or `none` when
the receiver's inner loop needs bytes the sender will never send before
its ACK (both sides then block forever). -/
def recvRun : List (List Nat) → List (Nat × List Nat) → List Nat → List Nat →
    Option (List (List Nat))
  | _, [], _, _ => some []
  | sender, (r, ps) :: rest, pending, w =>
    if r ≤ pending.length then
      let w2 := applyPieces ps pending w 0
      (recvRun sender rest (pending.drop r) w2).map (fun outs => w2.take r :: outs)
    else
      match sender with
      | [] => none
      | c :: cs =>
        if r ≤ pending.length + c.length then
          let w2 := applyPieces ps (pending ++ c) w 0
          (recvRun cs rest ((pending ++ c).drop r) w2).map
            (fun outs => w2.take r :: outs)
        else none

/-- The receiver's chunk sizes for a transfer of `filesize` payload
bytes: `bytes_remaining` is `filesize` in binary mode and `2 * filesize`
in hex mode, and each chunk takes `min(bytes_remaining, BUFFER_SIZE)`
wire bytes. -/
def recvSizes (bufferSize : Nat) (hasBuffer : Bool) (filesize : Nat) : List Nat :=
  chunkSizes bufferSize (if hasBuffer then filesize else 2 * filesize)

/-- Bytes the receiver writes to its destination file for one received
wire chunk: the chunk itself in binary mode, its unhexlification in hex
mode (lines 588-591 and 649-652). -/
def decodeChunk (hasBuffer : Bool) (c : List Nat) : List Nat :=
  if hasBuffer then c else unhexlify c

/-- End-to-end result of running a sender against a receiver on file `B`
with a given partial-read schedule (`scheds`, one list of `bytes_read`
sizes per receiver chunk): the byte sequence the receiver commits to its
destination, or `none` when the transfer blocks forever. -/
def transferResult (hasBuffer : Bool) (bufferSize : Nat) (B : List Nat)
    (scheds : List (List Nat)) : Option (List Nat) :=
  match sendFileWire hasBuffer bufferSize B with
  | none => none
  | some cs =>
    match recvRun cs ((recvSizes bufferSize hasBuffer B.length).zip scheds) []
        (List.replicate bufferSize 0) with
    | none => none
    | some outs => some ((outs.map (decodeChunk hasBuffer)).flatten)

/-! ## Host-sender event trace (`send_file_to_remote`, lines 600-627)

For the flow-control claim we additionally model the observable events
of the host-side sender: which bytes it writes to the device and what it
forwards to the user.  Non-ACK bytes read while waiting are forwarded
with `sys.stdout.write(chr(ord(char)))` (line 624). -/

/-- Observable actions of the host-side sender. -/
inductive XferEvent where
  | devWrite : List Nat → XferEvent
  | stdoutByte : Nat → XferEvent
  | stderrByte : Nat → XferEvent
deriving DecidableEq

/-- The ACK wait loop (lines 619-624): read single bytes from the device
until an ACK (0x06) arrives, forwarding every other byte to the user's
stdout.  `resp` is the stream of bytes the device will deliver; the
result is the forwarded events and the unconsumed remainder of the
stream, `none` if the stream ends before an ACK (the sender then blocks
forever). -/
def ackWait : List Nat → List XferEvent × Option (List Nat)
  | [] => ([], none)
  | c :: rest =>
    if c = 6 then ([], some rest)
    else
      let p := ackWait rest
      (XferEvent.stdoutByte c :: p.1, p.2)

/-- The sender's chunk loop over its on-wire chunks: write a chunk, wait
for an ACK, continue.  Returns the event trace and whether the loop ran
to completion (`false` when it blocked forever waiting for an ACK). -/
def sendTraceGo : List (List Nat) → List Nat → List XferEvent × Bool
  | [], _ => ([], true)
  | c :: cs, resp =>
    let p := ackWait resp
    match p.2 with
    | none => (XferEvent.devWrite c :: p.1, false)
    | some rest =>
      let q := sendTraceGo cs rest
      (XferEvent.devWrite c :: p.1 ++ q.1, q.2)

/-- Event trace of `send_file_to_remote` on file `B` when the device
delivers byte stream `resp` during the ACK waits.  `none` models the
non-terminating `sendPayloadBuf = 0` case. -/
def sendFileTrace (hasBuffer : Bool) (bufferSize : Nat) (B : List Nat)
    (resp : List Nat) : Option (List XferEvent × Bool) :=
  if sendPayloadBuf hasBuffer bufferSize = 0 ∧ B ≠ [] then none
  else some (sendTraceGo ((splitChunks (sendPayloadBuf hasBuffer bufferSize) B).map
    (encodeChunk hasBuffer)) resp)

/-- Number of device writes in a trace. -/
def devWriteCount (tr : List XferEvent) : Nat :=
  tr.countP (fun e => match e with | XferEvent.devWrite _ => true | _ => false)

/-! ## Path normalization (`resolve_path`, rshell.py lines 221-243)

Python strings are `List Char`.  `os.path.expanduser` belongs to the
host standard library, not to this repository, so it is kept abstract as
a function parameter `exp` (the source consults it only when the first
character is `~`, line 223); the current directory `cur_dir` is a
parameter `cur`.  The three places the source indexes a string
(`path[0]` twice and `cur_dir[-1]`) raise `IndexError` on an empty
string; the model returns `none` there. -/

/-- Model of `str.split('/')`: maximal `/`-free runs, with an empty
piece between adjacent separators and at the ends
(`''.split('/') == ['']`). -/
def splitSlash : List Char → List (List Char)
  | [] => [[]]
  | c :: rest =>
    if c = '/' then [] :: splitSlash rest
    else
      match splitSlash rest with
      | [] => [[c]]
      | h :: t => (c :: h) :: t

/-- Model of `'/'.join(l)`. -/
def joinSlash : List (List Char) → List Char
  | [] => []
  | [x] => x
  | x :: y :: t => x ++ '/' :: joinSlash (y :: t)

/-- One step of the component loop of `resolve_path` (lines 234-240):
`.` is dropped; `..` pops the last collected component when more than one
has been collected, and is otherwise kept. -/
def compStep (acc : List (List Char)) (c : List Char) : List (List Char) :=
  if c = ['.'] then acc
  else if c = ['.', '.'] ∧ 1 < acc.length then acc.dropLast
  else acc ++ [c]

/-- The component loop: fold `compStep` over the split components
starting from the empty `new_comps`. -/
def foldComps (comps : List (List Char)) : List (List Char) :=
  comps.foldl compStep []

/-- Split, normalize and re-join an effective absolute path
(lines 232-243): when exactly one component remains the source returns
`new_comps[0] + '/'`, otherwise `'/'.join(new_comps)`. -/
def finishPath (e : List Char) : List Char :=
  match foldComps (splitSlash e) with
  | [x] => x ++ ['/']
  | nc => joinSlash nc

/-- The part of `resolve_path` after `~`-expansion (lines 226-243): make
the path absolute by prepending the current directory when needed
(`cur_dir[-1]` is the second possible `IndexError`), then normalize.
`path1[0]` raising on an empty expansion result is the other `none`. -/
def resolve_path_aux (cur : List Char) (path1 : List Char) : Option (List Char) :=
  match path1 with
  | [] => none
  | c1 :: _ =>
    if c1 = '/' then some (finishPath path1)
    else
      match cur.getLast? with
      | none => none
      | some cl =>
        some (finishPath (if cl = '/' then cur ++ path1 else cur ++ '/' :: path1))

/-- Model of `resolve_path(path)` with the process state (`cur_dir`) and
the host `os.path.expanduser` as explicit parameters (`exp` is consulted
only when the first character is `~`, line 223).  `none` models an
`IndexError` at one of the three string indexings; `path[0]` on the
empty string is the first. -/
def resolve_path (exp : List Char → List Char) (cur : List Char)
    (path : List Char) : Option (List Char) :=
  match path with
  | [] => none
  | c0 :: _ => resolve_path_aux cur (if c0 = '~' then exp path else path)

/-! ## Virtual-filesystem routing (`get_dev_and_path`, lines 246-271) -/

/-- The routing-relevant state of one registered device: its top-level
directory names re-expressed as `"/name/"` strings (`root_dirs`,
line 917) and its mount prefix `name_path = "/" + name + "/"`
(line 111). -/
structure RegDevice where
  root_dirs : List (List Char)
  name_path : List Char
deriving DecidableEq

/-- Model of `Device.is_root_path` (lines 931-937): does `filename + '/'`
start with one of the device's root directories? -/
def is_root_path (d : RegDevice) (filename : List Char) : Bool :=
  d.root_dirs.any (fun rd => rd.isPrefixOf (filename ++ ['/']))

/-- Model of `get_dev_and_path(filename)` over a registry snapshot
(`DEFAULT_DEV` and the `DEVS` list): the default device claims paths
under its root directories unchanged; otherwise the first device whose
mount prefix matches claims the path with the prefix stripped (the bare
mount name mapping to `/`); otherwise the path belongs to the host
(`none`). -/
def get_dev_and_path (dflt : Option RegDevice) (devs : List RegDevice)
    (filename : List Char) : Option RegDevice × List Char :=
  match dflt with
  | some d =>
    if is_root_path d filename then (some d, filename)
    else
      match devs.find? (fun dev => dev.name_path.isPrefixOf (filename ++ ['/'])) with
      | some dev =>
        let df := filename.drop (dev.name_path.length - 1)
        (some dev, if df = [] then ['/'] else df)
      | none => (none, filename)
  | none =>
    match devs.find? (fun dev => dev.name_path.isPrefixOf (filename ++ ['/'])) with
    | some dev =>
      let df := filename.drop (dev.name_path.length - 1)
      (some dev, if df = [] then ['/'] else df)
    | none => (none, filename)

/-! ## Decimal rendering for the collision suffix (`'-%d' % DEV_IDX`) -/

/-- ASCII character of a decimal digit. -/
def digitChar (n : Nat) : Char :=
  Char.ofNat (48 + n)

/-- Decimal digits of `n`, most significant first; the fuel argument
bounds the division recursion (`fuel = n` suffices). -/
def natToCharsGo : Nat → Nat → List Char
  | 0, n => [digitChar n]
  | fuel + 1, n =>
    if n < 10 then [digitChar n]
    else natToCharsGo fuel (n / 10) ++ [digitChar (n % 10)]

/-- Model of Python `'%d' % n` for `n : Nat`. -/
def natToChars (n : Nat) : List Char :=
  natToCharsGo n n

/-! ## Device registry (`add_device` / `find_device_by_name`,
rshell.py lines 96-126)

`DEVS`, `DEFAULT_DEV` and `DEV_IDX` form the registry state.  A device is
identified by its `dev_name_short`; the `test_dev is DEFAULT_DEV`
identity test of line 104 is modelled as equality of entries (short
names are unique in the registry, so the entry determines the object). -/

/-- The registry-relevant fields of a `Device`. -/
structure DevEntry where
  short : List Char
  name : List Char
  name_path : List Char
deriving DecidableEq

/-- The module-level registry state (`DEVS`, `DEFAULT_DEV`, `DEV_IDX`,
lines 90-92; `DEV_IDX` starts at 1). -/
structure RegistryState where
  devs : List DevEntry
  dflt : Option DevEntry
  idx : Nat

/-- Model of `find_device_by_name` (lines 118-126): the empty name
returns the default device, otherwise the first device with that board
name. -/
def find_device_by_name (dflt : Option DevEntry) (devs : List DevEntry)
    (name : List Char) : Option DevEntry :=
  if name = [] then dflt else devs.find? (fun t => t.name == name)

/-- Model of `add_device(dev)` (lines 96-115): drop a previously
registered device with the same short name (clearing the default if it
was that one), suffix the display name with `-DEV_IDX` when it is
already taken, set the mount prefix, append, bump `DEV_IDX`, and make
the new device the default when there is none. -/
def add_device (st : RegistryState) (d : DevEntry) : RegistryState :=
  let hadOld := st.devs.find? (fun t => t.short == d.short)
  let devs1 := st.devs.eraseP (fun t => t.short == d.short)
  let dflt1 :=
    match hadOld with
    | some t => if st.dflt = some t then none else st.dflt
    | none => st.dflt
  let newName :=
    if (find_device_by_name dflt1 devs1 d.name).isSome then
      d.name ++ '-' :: natToChars st.idx
    else d.name
  let entry : DevEntry := ⟨d.short, newName, '/' :: (newName ++ ['/'])⟩
  { devs := devs1 ++ [entry]
    dflt := match dflt1 with | none => some entry | some t => some t
    idx := st.idx + 1 }

/-- The empty registry at program start. -/
def initRegistry : RegistryState :=
  { devs := [], dflt := none, idx := 1 }

/-- Display names produced by `n` successive `add_device` calls whose
devices all report the same bare board name `b` (and pairwise distinct
short names): the first keeps `b`, the `k`-th (`k ≥ 2`) becomes
`b ++ "-" ++ toString k` because `DEV_IDX` equals `k` at that point. -/
def collisionNames (b : List Char) : Nat → List (List Char)
  | 0 => []
  | 1 => [b]
  | n + 2 => collisionNames b (n + 1) ++ [b ++ '-' :: natToChars (n + 2)]

/-! ## `get_stat` (rshell.py lines 405-421)

`os.stat` belongs to the operating system, so its result is a parameter:
`none` models an `OSError` (file does not exist), `some rstat` a
successful 10-field stat tuple.  On success with `IS_UPY` the three
trailing time fields are shifted by `TIME_OFFSET`; on `OSError` the
source returns the literal `(0, 0, 0, 0, 0, 0, 0, 0)`. -/

/-- Seconds between the 1970 host epoch and the 2000 MicroPython epoch
(`calendar.timegm((2000, 1, 1, 0, 0, 0, 0, 0, 0))`, line 88). -/
def TIME_OFFSET : Int := 946684800

/-- Model of `get_stat(filename)`; `statResult` is the outcome of
`os.stat(filename)`. -/
def get_stat (isUpy : Bool) (offset : Int) (statResult : Option (List Int)) :
    List Int :=
  match statResult with
  | some rstat =>
    if isUpy then rstat.take 7 ++ (rstat.drop 7).map (fun t => t + offset)
    else rstat
  | none => [0, 0, 0, 0, 0, 0, 0, 0]

/-! ## `remove_file` (rshell.py lines 466-484)

The filesystem is an oracle tree: `missing` means `os.stat` raises
`OSError`; a `file` carries whether `os.remove` succeeds; a `dir`
carries its children and whether `os.rmdir` succeeds.  Child names play
no role in the return value and are omitted.  The mutually inductive
list type keeps the recursion structural. -/

mutual
inductive FsObj where
  | missing : FsObj
  | file : Bool → FsObj
  | dir : FsChildren → Bool → FsObj
inductive FsChildren where
  | nil : FsChildren
  | cons : FsObj → FsChildren → FsChildren
end

mutual
/-- Model of `remove_file(filename, recursive, force)`: any raising
operation falls into the bare `except:` which returns `False` unless
`force` (lines 481-484); a failing recursive child aborts with `False`
unless `force` (lines 475-477). -/
def remove_file : FsObj → Bool → Bool → Bool
  | FsObj.missing, _, force => force
  | FsObj.file ok, _, force => ok || force
  | FsObj.dir children rmdirOk, recursive, force =>
    if recursive then
      if removeChildrenLoop children recursive force then rmdirOk || force
      else false
    else rmdirOk || force

/-- The child loop of `remove_file` (lines 474-477): returns `false` as
soon as a child fails while `force` is off (the source's early
`return False`), otherwise processes every child. -/
def removeChildrenLoop : FsChildren → Bool → Bool → Bool
  | FsChildren.nil, _, _ => true
  | FsChildren.cons c rest, recursive, force =>
    if !(remove_file c recursive force) && !force then false
    else removeChildrenLoop rest recursive force
end

/-- Does the top-level operation on this object raise (`os.stat` on a
missing path, `os.remove` on the file, or `os.rmdir` on the
directory)? -/
def shallowRaises : FsObj → Bool
  | FsObj.missing => true
  | FsObj.file ok => !ok
  | FsObj.dir _ rmdirOk => !rmdirOk

/-! ## Control flow of `Device.remote` (rshell.py lines 949-983)

The raw-REPL primitives (`enter_raw_repl`, `exec_raw_no_follow`,
`follow`, `exit_raw_repl`) live in the external `pyboard` module, which
is not part of this repository; they are modelled from the spec
(section 4.2): `enter_raw` moves the channel from friendly to raw,
`exit_raw` back to friendly, and `follow` either succeeds, fails with
`RemoteException` when the board's error stream is non-empty, or is
interrupted by the transport closing (per spec 4.1 an I/O error closes
the transport and surfaces `TransportClosed`).

`Device.remote` is a straight-line sequence with no `try`/`finally`:

    check_pyb; enter_raw_repl; check_pyb; exec_raw_no_follow;
    xfer_func?; check_pyb; follow; check_pyb; exit_raw_repl

`check_pyb` raises `DeviceError` when the device was closed, and
`Device.read`/`Device.write` (used by the transfer functions) close the
device before raising `DeviceError` (lines 939-947 and 1012-1021). -/

/-- How the `follow` step of a remote call ends. -/
inductive FollowCase where
  | ok : FollowCase
  | remoteExc : FollowCase
  | transportClosed : FollowCase
deriving DecidableEq

/-- Fault selection for one `Device.remote` call: whether the device is
already closed on entry, whether a `Device.read`/`Device.write` inside
the transfer function fails (closing the device and raising
`DeviceError`), and how `follow` ends. -/
structure RemoteScenario where
  closedAtStart : Bool
  xferFault : Bool
  followCase : FollowCase
deriving DecidableEq

/-- State of one device's raw-REPL channel: whether the transport is
closed and whether the board is in raw mode. -/
structure ChannelState where
  closed : Bool
  raw : Bool
deriving DecidableEq

/-- How the remote call ends for its caller. -/
inductive RemoteOutcome where
  | returned : RemoteOutcome
  | deviceError : RemoteOutcome
  | remoteException : RemoteOutcome
deriving DecidableEq

/-- Result of one `Device.remote` call: the channel state left behind,
the outcome, and whether `exit_raw_repl` was executed. -/
structure RemoteResult where
  state : ChannelState
  outcome : RemoteOutcome
  exitRawRan : Bool
deriving DecidableEq

/-- The control flow of `Device.remote` (lines 969-983), starting from a
friendly channel.  Every exceptional exit skips the trailing
`exit_raw_repl` because nothing wraps the sequence. -/
def remoteCall (s : RemoteScenario) : RemoteResult :=
  if s.closedAtStart then
    { state := { closed := true, raw := false }
      outcome := RemoteOutcome.deviceError, exitRawRan := false }
  else if s.xferFault then
    { state := { closed := true, raw := true }
      outcome := RemoteOutcome.deviceError, exitRawRan := false }
  else
    match s.followCase with
    | FollowCase.remoteExc =>
      { state := { closed := false, raw := true }
        outcome := RemoteOutcome.remoteException, exitRawRan := false }
    | FollowCase.transportClosed =>
      { state := { closed := true, raw := true }
        outcome := RemoteOutcome.deviceError, exitRawRan := false }
    | FollowCase.ok =>
      { state := { closed := false, raw := false }
        outcome := RemoteOutcome.returned, exitRawRan := true }

/-! ## Example registry for the routing scenarios

The S3 routing scenario of the spec: a default device `pyboard` with
root directories `/flash/` and `/sd/`, and a second device mounted at
`/esp/`. -/

/-- The default device of scenario S3. -/
def pyboardDev : RegDevice :=
  { root_dirs := [['/', 'f', 'l', 'a', 's', 'h', '/'], ['/', 's', 'd', '/']]
    name_path := ['/', 'p', 'y', 'b', 'o', 'a', 'r', 'd', '/'] }

/-- The non-default device of scenario S3. -/
def espDev : RegDevice :=
  { root_dirs := []
    name_path := ['/', 'e', 's', 'p', '/'] }

/-! ## Definitions used by the proofs -/

/-- Invariant of the collected `new_comps` list of `resolve_path`: it
starts with the empty component produced by the leading `/`, never
contains `.`, and contains `..` at most at index 1 (a `..` is only kept
when exactly the root component has been collected). -/
def GoodAcc (acc : List (List Char)) : Prop :=
  acc.head? = some [] ∧ (∀ x ∈ acc, x ≠ ['.']) ∧ ∀ x ∈ acc.drop 2, x ≠ ['.', '.']

/-- Value of a decimal digit string (left inverse of `natToChars`). -/
def digitsVal (l : List Char) : Nat :=
  l.foldl (fun a c => 10 * a + (c.toNat - 48)) 0

/-! ## Lemmas: hex codec -/

lemma hexlify_length (bs : List Nat) : (hexlify bs).length = 2 * bs.length := by
  induction bs with
  | nil => rfl
  | cons b rest ih => simp [hexlify, ih]; omega

lemma fromHexDigit_toHexDigit : ∀ n, n < 16 → fromHexDigit (toHexDigit n) = n := by
  decide

lemma unhexlify_hexlify (bs : List Nat) (h : ∀ b ∈ bs, b < 256) :
    unhexlify (hexlify bs) = bs := by
  induction bs with
  | nil => rfl
  | cons b rest ih =>
    have hb : b < 256 := h b (List.mem_cons_self ..)
    have h1 : fromHexDigit (toHexDigit (b / 16)) = b / 16 :=
      fromHexDigit_toHexDigit _ (by omega)
    have h2 : fromHexDigit (toHexDigit (b % 16)) = b % 16 :=
      fromHexDigit_toHexDigit _ (by omega)
    have hdm : b / 16 * 16 + b % 16 = b := by
      have := Nat.div_add_mod b 16
      omega
    simp only [hexlify, unhexlify]
    rw [h1, h2, hdm, ih (fun x hx => h x (List.mem_cons_of_mem _ hx))]

lemma hexlify_eq_nil_iff (bs : List Nat) : hexlify bs = [] ↔ bs = [] := by
  cases bs with
  | nil => simp [hexlify]
  | cons b rest => simp [hexlify]

/-! ## Lemmas: chunking -/

lemma chunkSizesGo_zero (buf fuel : Nat) : chunkSizesGo buf fuel 0 = [] := by
  cases fuel with
  | zero => rfl
  | succ f => simp [chunkSizesGo]

lemma splitChunksGo_flatten (buf : Nat) (hbuf : 0 < buf) :
    ∀ fuel bs, bs.length ≤ fuel → (splitChunksGo buf fuel bs).flatten = bs := by
  intro fuel
  induction fuel with
  | zero =>
    intro bs hlen
    have : bs = [] := List.eq_nil_of_length_eq_zero (by omega)
    simp [this, splitChunksGo]
  | succ f ih =>
    intro bs hlen
    by_cases hbs : bs = []
    · simp [hbs, splitChunksGo]
    · have hpos : 0 < bs.length := List.length_pos.mpr hbs
      simp only [splitChunksGo, if_neg hbs, List.flatten]
      rw [ih (bs.drop buf) (by simp [List.length_drop]; omega)]
      exact List.take_append_drop ..

lemma splitChunksGo_map_length (buf : Nat) :
    ∀ fuel bs, (splitChunksGo buf fuel bs).map List.length =
      chunkSizesGo buf fuel bs.length := by
  intro fuel
  induction fuel with
  | zero => intro bs; rfl
  | succ f ih =>
    intro bs
    by_cases hbs : bs = []
    · simp [hbs, splitChunksGo, chunkSizesGo]
    · have hpos : bs.length ≠ 0 := by
        simpa [List.length_eq_zero] using hbs
      simp only [splitChunksGo, if_neg hbs, chunkSizesGo, if_neg hpos, List.map_cons,
        List.cons.injEq]
      constructor
      · rw [List.length_take]; omega
      · rw [ih (bs.drop buf), List.length_drop]
        congr 1
        omega

lemma splitChunksGo_mem (buf : Nat) (hbuf : 0 < buf) :
    ∀ fuel bs c, c ∈ splitChunksGo buf fuel bs →
      c ≠ [] ∧ c.length ≤ buf ∧ ∀ b ∈ c, b ∈ bs := by
  intro fuel
  induction fuel with
  | zero => intro bs c hc; simp [splitChunksGo] at hc
  | succ f ih =>
    intro bs c hc
    by_cases hbs : bs = []
    · simp [hbs, splitChunksGo] at hc
    · simp only [splitChunksGo, if_neg hbs, List.mem_cons] at hc
      cases hc with
      | inl h =>
        subst h
        refine ⟨?_, ?_, ?_⟩
        · simp [List.take_eq_nil_iff, hbs]
          omega
        · exact le_trans (List.length_take_le ..) (le_refl _)
        · intro b hb; exact List.mem_of_mem_take hb
      | inr h =>
        obtain ⟨h1, h2, h3⟩ := ih (bs.drop buf) c h
        exact ⟨h1, h2, fun b hb => List.mem_of_mem_drop (h3 b hb)⟩

lemma chunkSizesGo_double (buf : Nat) (hbuf : 0 < buf) :
    ∀ f f2 rem, rem ≤ f → rem ≤ f2 →
      (chunkSizesGo buf f rem).map (fun x => 2 * x) =
        chunkSizesGo (2 * buf) f2 (2 * rem) := by
  intro f
  induction f with
  | zero =>
    intro f2 rem h1 _
    have : rem = 0 := by omega
    subst this
    simp [chunkSizesGo_zero]
  | succ f ih =>
    intro f2 rem h1 h2
    by_cases hrem : rem = 0
    · subst hrem; simp [chunkSizesGo_zero]
    · obtain ⟨f2', rfl⟩ : ∃ g, f2 = g + 1 := ⟨f2 - 1, by omega⟩
      have h2rem : ¬ (2 * rem = 0) := by omega
      simp only [chunkSizesGo, if_neg hrem, if_neg h2rem, List.map_cons, List.cons.injEq]
      constructor
      · omega
      · rw [ih f2' (rem - min rem buf) (by omega) (by omega)]
        congr 1
        omega

/-! ## Lemmas: receiver reassembly -/

lemma applyPieces_spec :
    ∀ (ps data w : List Nat) (i : Nat),
      i ≤ w.length → (∀ k ∈ ps, k ≤ w.length) → ps.sum ≤ data.length →
      (applyPieces ps data w i).take (i + ps.sum) = w.take i ++ data.take ps.sum ∧
        w.length ≤ (applyPieces ps data w i).length := by
  intro ps
  induction ps with
  | nil =>
    intro data w i hi _ _
    simp [applyPieces, List.take_add, List.take_take, Nat.min_self]
  | cons k ks ih =>
    intro data w i hi hks hsm
    by_cases hk : k = 0
    · subst hk
      simp only [applyPieces, if_pos rfl, List.drop_zero, Nat.add_zero]
      have := ih data w i hi (fun x hx => hks x (List.mem_cons_of_mem _ hx))
        (by simpa using hsm)
      simpa [List.sum_cons] using this
    · have hkd : k ≤ data.length := by
        have : k ≤ (k :: ks).sum := by simp [List.sum_cons]
        omega
      have hkw : k ≤ w.length := hks k (List.mem_cons_self ..)
      have htklen : (data.take k).length = k := List.length_take_of_le hkd
      have htilen : (w.take i).length = i := List.length_take_of_le hi
      have hmax : max i k ≤ w.length := by omega
      have hw1len : (sliceAssign w i (data.take k)).length = i + k + (w.length - max i k) := by
        simp [sliceAssign, htklen, htilen, List.length_drop]
        omega
      have hw1ge : w.length ≤ (sliceAssign w i (data.take k)).length := by omega
      have hik : i + k ≤ (sliceAssign w i (data.take k)).length := by omega
      have htake : (sliceAssign w i (data.take k)).take (i + k) = w.take i ++ data.take k := by
        have : sliceAssign w i (data.take k) =
            (w.take i ++ data.take k) ++ w.drop (max i (data.take k).length) := by
          simp [sliceAssign, List.append_assoc]
        rw [this, htklen]
        have hlen : (w.take i ++ data.take k).length = i + k := by
          simp [htklen, htilen]
        rw [← hlen, List.take_left]
      simp only [applyPieces, if_neg hk]
      have hrec := ih (data.drop k) (sliceAssign w i (data.take k)) (i + k) hik
        (fun x hx => le_trans (hks x (List.mem_cons_of_mem _ hx)) hw1ge)
        (by simp [List.length_drop]; simp [List.sum_cons] at hsm; omega)
      constructor
      · have hsum : (k :: ks).sum = k + ks.sum := by simp [List.sum_cons]
        rw [hsum, show i + (k + ks.sum) = (i + k) + ks.sum by omega, hrec.1, htake]
        rw [List.append_assoc]
        congr 1
        rw [← List.take_add]
      · exact le_trans hw1ge hrec.2

lemma recvRun_exact :
    ∀ (cs scheds : List (List Nat)) (w : List Nat),
      List.Forall₂ (fun c ps => (ps : List Nat).sum = c.length) cs scheds →
      (∀ c ∈ cs, c ≠ []) → (∀ c ∈ cs, c.length ≤ w.length) →
      recvRun cs ((cs.map List.length).zip scheds) [] w = some cs := by
  intro cs
  induction cs with
  | nil =>
    intro scheds w _ _ _
    simp [recvRun]
  | cons c cs' ih =>
    intro scheds w hf hne hlen
    cases hf with
    | cons hsum hf' =>
      rename_i ps ss
      have hc : c ≠ [] := hne c (List.mem_cons_self ..)
      have hcp : 0 < c.length := List.length_pos.mpr hc
      have hcw : c.length ≤ w.length := hlen c (List.mem_cons_self ..)
      have hspec := applyPieces_spec ps c w 0 (by omega)
        (fun x hx => by
          have hx1 : x ≤ ps.sum :=
            List.single_le_sum (fun y _ => Nat.zero_le y) x hx
          omega)
        (by omega)
      simp only [List.map_cons, List.zip_cons_cons, recvRun, List.length_nil,
        List.nil_append]
      rw [if_neg (by omega), if_pos (by omega)]
      have hdrop : c.drop c.length = [] := List.drop_length ..
      have hw2 : (applyPieces ps c w 0).take c.length = c := by
        have := hspec.1
        simpa [hsum, List.take_length] using this
      have hih := ih ss (applyPieces ps c w 0) hf'
        (fun x hx => hne x (List.mem_cons_of_mem _ hx))
        (fun x hx => le_trans (hlen x (List.mem_cons_of_mem _ hx)) hspec.2)
      rw [hdrop, show List.zipWith Prod.mk (List.map List.length cs') ss =
        (List.map List.length cs').zip ss from rfl, hih]
      simp [hw2]

lemma encodeChunk_true (c : List Nat) : encodeChunk true c = c := rfl

lemma encodeChunk_false (c : List Nat) : encodeChunk false c = hexlify c := rfl

lemma decodeChunk_true (c : List Nat) : decodeChunk true c = c := rfl

lemma decodeChunk_false (c : List Nat) : decodeChunk false c = unhexlify c := rfl

lemma sendPayloadBuf_true (b : Nat) : sendPayloadBuf true b = b := rfl

lemma sendPayloadBuf_false (b : Nat) : sendPayloadBuf false b = b / 2 := rfl

lemma sendWire_lengths (hasBuffer : Bool) (bufferSize : Nat) (B : List Nat)
    (h1 : hasBuffer = true → 0 < bufferSize)
    (h2 : hasBuffer = false → 2 ≤ bufferSize ∧ bufferSize % 2 = 0) :
    ((splitChunks (sendPayloadBuf hasBuffer bufferSize) B).map
      (encodeChunk hasBuffer)).map List.length =
      recvSizes bufferSize hasBuffer B.length := by
  cases hasBuffer with
  | true =>
    have hmapid : (splitChunks (sendPayloadBuf true bufferSize) B).map (encodeChunk true) =
        splitChunks bufferSize B := by
      rw [sendPayloadBuf_true]
      rw [List.map_congr_left (fun c _ => encodeChunk_true c)]
      exact List.map_id' _
    rw [hmapid, splitChunks, splitChunksGo_map_length]
    simp [recvSizes, chunkSizes]
  | false =>
    obtain ⟨hge, heven⟩ := h2 rfl
    have hpb : 0 < bufferSize / 2 := by omega
    have hdub : 2 * (bufferSize / 2) = bufferSize := by omega
    rw [List.map_map]
    have hcomp : (splitChunks (sendPayloadBuf false bufferSize) B).map
        (List.length ∘ encodeChunk false) =
        (splitChunks (bufferSize / 2) B).map ((fun x => 2 * x) ∘ List.length) := by
      rw [sendPayloadBuf_false]
      refine List.map_congr_left ?_
      intro c _
      simp [Function.comp, encodeChunk_false, hexlify_length]
    rw [hcomp, ← List.map_map, splitChunks, splitChunksGo_map_length,
      chunkSizesGo_double (bufferSize / 2) hpb B.length (2 * B.length) B.length
        (le_refl _) (by omega), hdub]
    simp [recvSizes, chunkSizes]

lemma forall2_sum_flip :
    ∀ (cs scheds : List (List Nat)),
      List.Forall₂ (fun ps r => (ps : List Nat).sum = r) scheds (cs.map List.length) →
      List.Forall₂ (fun c ps => (ps : List Nat).sum = c.length) cs scheds := by
  intro cs
  induction cs with
  | nil =>
    intro scheds h
    cases h
    exact List.Forall₂.nil
  | cons c cs' ih =>
    intro scheds h
    cases h with
    | cons hs hrest =>
      exact List.Forall₂.cons hs (ih _ hrest)

lemma transferResult_eq (hasBuffer : Bool) (bufferSize : Nat) (B : List Nat)
    (scheds : List (List Nat))
    (hbytes : ∀ b ∈ B, b < 256)
    (h1 : hasBuffer = true → 0 < bufferSize)
    (h2 : hasBuffer = false → 2 ≤ bufferSize ∧ bufferSize % 2 = 0)
    (hsched : List.Forall₂ (fun ps r => (ps : List Nat).sum = r) scheds
      (recvSizes bufferSize hasBuffer B.length)) :
    transferResult hasBuffer bufferSize B scheds = some B := by
  have hpb : 0 < sendPayloadBuf hasBuffer bufferSize := by
    cases hasBuffer with
    | true => simpa [sendPayloadBuf_true] using h1 rfl
    | false =>
      obtain ⟨hge, _⟩ := h2 rfl
      rw [sendPayloadBuf_false]
      omega
  set pc := splitChunks (sendPayloadBuf hasBuffer bufferSize) B with hpc
  set cs := pc.map (encodeChunk hasBuffer) with hcs
  have hwire : sendFileWire hasBuffer bufferSize B = some cs := by
    have hno : ¬ (sendPayloadBuf hasBuffer bufferSize = 0 ∧ B ≠ []) :=
      fun h => by omega
    simp [sendFileWire, hno, hcs, hpc]
  have hlens : cs.map List.length = recvSizes bufferSize hasBuffer B.length :=
    sendWire_lengths hasBuffer bufferSize B h1 h2
  have hpcmem : ∀ c ∈ pc, c ≠ [] ∧ c.length ≤ sendPayloadBuf hasBuffer bufferSize ∧
      ∀ b ∈ c, b ∈ B := by
    intro c hc
    exact splitChunksGo_mem (sendPayloadBuf hasBuffer bufferSize) hpb B.length B c hc
  have hcsne : ∀ c ∈ cs, c ≠ [] := by
    intro c hc
    obtain ⟨p, hp, rfl⟩ := List.mem_map.mp hc
    have hpne := (hpcmem p hp).1
    cases hasBuffer with
    | true => simpa [encodeChunk_true] using hpne
    | false => simpa [encodeChunk_false, hexlify_eq_nil_iff] using hpne
  have hcslen : ∀ c ∈ cs, c.length ≤ (List.replicate bufferSize (0 : Nat)).length := by
    intro c hc
    obtain ⟨p, hp, rfl⟩ := List.mem_map.mp hc
    have hple := (hpcmem p hp).2.1
    rw [List.length_replicate]
    cases hasBuffer with
    | true =>
      rw [encodeChunk_true]
      simpa [sendPayloadBuf_true] using hple
    | false =>
      rw [encodeChunk_false, hexlify_length]
      rw [sendPayloadBuf_false] at hple
      omega
  have hf2 : List.Forall₂ (fun c ps => (ps : List Nat).sum = c.length) cs scheds := by
    rw [← hlens] at hsched
    exact forall2_sum_flip cs scheds hsched
  have hrun := recvRun_exact cs scheds (List.replicate bufferSize 0) hf2 hcsne hcslen
  simp only [transferResult, hwire, ← hlens, hrun]
  congr 1
  cases hasBuffer with
  | true =>
    have hid : cs.map (decodeChunk true) = pc := by
      rw [hcs, List.map_map]
      have hpt : ∀ c ∈ pc, (decodeChunk true ∘ encodeChunk true) c = id c :=
        fun c _ => rfl
      rw [List.map_congr_left hpt, List.map_id]
    rw [hid, hpc, splitChunks]
    exact splitChunksGo_flatten (sendPayloadBuf true bufferSize) hpb B.length B (le_refl _)
  | false =>
    have hid : cs.map (decodeChunk false) = pc := by
      rw [hcs, List.map_map]
      have hpt : ∀ c ∈ pc, (decodeChunk false ∘ encodeChunk false) c = id c := by
        intro c hc
        show unhexlify (hexlify c) = c
        exact unhexlify_hexlify c (fun b hb => hbytes b ((hpcmem c hc).2.2 b hb))
      rw [List.map_congr_left hpt, List.map_id]
    rw [hid, hpc, splitChunks]
    exact splitChunksGo_flatten (sendPayloadBuf false bufferSize) hpb B.length B (le_refl _)

/-! ## Lemmas: host-sender ACK pacing -/

lemma ackWait_none :
    ∀ resp : List Nat, (ackWait resp).2 = none →
      resp.count 6 = 0 ∧ (ackWait resp).1 = resp.map XferEvent.stdoutByte := by
  intro resp
  induction resp with
  | nil => intro _; simp [ackWait]
  | cons c rest ih =>
    intro h
    by_cases hc : c = 6
    · subst hc; simp [ackWait] at h
    · simp only [ackWait, if_neg hc] at h ⊢
      obtain ⟨h1, h2⟩ := ih h
      refine ⟨?_, ?_⟩
      · rw [List.count_cons]
        simp [h1, hc]
      · simp [h2]

lemma ackWait_some :
    ∀ (resp rest : List Nat), (ackWait resp).2 = some rest →
      resp.count 6 = rest.count 6 + 1 ∧
      ∃ pre : List Nat, resp = pre ++ 6 :: rest ∧
        (ackWait resp).1 = pre.map XferEvent.stdoutByte ∧ (6 : Nat) ∉ pre := by
  intro resp
  induction resp with
  | nil => intro rest h; simp [ackWait] at h
  | cons c tail ih =>
    intro rest h
    by_cases hc : c = 6
    · subst hc
      simp only [ackWait, if_pos rfl] at h ⊢
      obtain rfl : tail = rest := by simpa using h
      refine ⟨by simp [List.count_cons], [], by simp, by simp, by simp⟩
    · simp only [ackWait, if_neg hc] at h ⊢
      obtain ⟨h1, pre, hpre, hevs, hnot⟩ := ih rest h
      refine ⟨?_, c :: pre, ?_, ?_, ?_⟩
      · rw [List.count_cons]
        simp [h1, hc]
      · simp [hpre]
      · simp [hevs]
      · simp [hnot]
        omega

lemma devWriteCount_cons_devWrite (c : List Nat) (tr : List XferEvent) :
    devWriteCount (XferEvent.devWrite c :: tr) = devWriteCount tr + 1 := by
  simp [devWriteCount, List.countP_cons]

lemma devWriteCount_append (tr1 tr2 : List XferEvent) :
    devWriteCount (tr1 ++ tr2) = devWriteCount tr1 + devWriteCount tr2 := by
  simp [devWriteCount, List.countP_append]

lemma devWriteCount_map_stdout (l : List Nat) :
    devWriteCount (l.map XferEvent.stdoutByte) = 0 := by
  rw [devWriteCount, List.countP_eq_zero]
  intro e he
  obtain ⟨c, _, rfl⟩ := List.mem_map.mp he
  simp

lemma sendTraceGo_spec :
    ∀ (cs : List (List Nat)) (resp : List Nat),
      devWriteCount (sendTraceGo cs resp).1 = min cs.length (resp.count 6 + 1) ∧
      ((sendTraceGo cs resp).2 = true ↔ cs.length ≤ resp.count 6) ∧
      (∀ c, XferEvent.stderrByte c ∉ (sendTraceGo cs resp).1) ∧
      (∀ c, XferEvent.stdoutByte c ∈ (sendTraceGo cs resp).1 → c ≠ 6 ∧ c ∈ resp) := by
  intro cs
  induction cs with
  | nil =>
    intro resp
    refine ⟨by simp [sendTraceGo, devWriteCount], by simp [sendTraceGo], ?_, ?_⟩
    · intro c; simp [sendTraceGo]
    · intro c h; simp [sendTraceGo] at h
  | cons c cs' ih =>
    intro resp
    cases hp : (ackWait resp).2 with
    | none =>
      obtain ⟨hcnt, hevs⟩ := ackWait_none resp hp
      have h6 : (6 : Nat) ∉ resp := List.count_eq_zero.mp hcnt
      simp only [sendTraceGo, hp]
      refine ⟨?_, ?_, ?_, ?_⟩
      · rw [devWriteCount_cons_devWrite, hevs, devWriteCount_map_stdout, hcnt]
        simp
      · simp [hcnt]
      · intro x hx
        rcases List.mem_cons.mp hx with h | h
        · cases h
        · rw [hevs] at h
          obtain ⟨y, _, hy⟩ := List.mem_map.mp h
          cases hy
      · intro x hx
        rcases List.mem_cons.mp hx with h | h
        · cases h
        · rw [hevs] at h
          obtain ⟨y, hy, hyx⟩ := List.mem_map.mp h
          cases hyx
          exact ⟨fun hy6 => h6 (hy6 ▸ hy), hy⟩
    | some rest =>
      obtain ⟨hcnt, pre, hpre, hevs, hnotpre⟩ := ackWait_some resp rest hp
      obtain ⟨ihcnt, ihdone, ihstderr, ihstdout⟩ := ih rest
      simp only [sendTraceGo, hp]
      refine ⟨?_, ?_, ?_, ?_⟩
      · rw [devWriteCount_append, devWriteCount_cons_devWrite, hevs,
          devWriteCount_map_stdout, ihcnt]
        simp only [List.length_cons, hcnt]
        omega
      · rw [ihdone]
        simp only [List.length_cons, hcnt]
        omega
      · intro x hx
        rcases List.mem_append.mp hx with h | h
        · rcases List.mem_cons.mp h with h | h
          · cases h
          · rw [hevs] at h
            obtain ⟨y, _, hy⟩ := List.mem_map.mp h
            cases hy
        · exact ihstderr x h
      · intro x hx
        rcases List.mem_append.mp hx with h | h
        · rcases List.mem_cons.mp h with h | h
          · cases h
          · rw [hevs] at h
            obtain ⟨y, hy, hyx⟩ := List.mem_map.mp h
            cases hyx
            refine ⟨fun hy6 => hnotpre (hy6 ▸ hy), ?_⟩
            rw [hpre]
            exact List.mem_append_left _ hy
        · obtain ⟨hne, hmem⟩ := ihstdout x h
          refine ⟨hne, ?_⟩
          rw [hpre]
          exact List.mem_append_right _ (List.mem_cons_of_mem _ hmem)

/-! ## Lemmas: path splitting and joining -/

lemma splitSlash_ne_nil : ∀ l : List Char, splitSlash l ≠ [] := by
  intro l
  induction l with
  | nil => simp [splitSlash]
  | cons c rest ih =>
    by_cases hc : c = '/'
    · simp [splitSlash, hc]
    · simp only [splitSlash, if_neg hc]
      cases h : splitSlash rest with
      | nil => simp
      | cons a t => simp

lemma splitSlash_no_slash :
    ∀ (l : List Char) (p : List Char), p ∈ splitSlash l → '/' ∉ p := by
  intro l
  induction l with
  | nil =>
    intro p hp
    simp [splitSlash] at hp
    simp [hp]
  | cons c rest ih =>
    intro p hp
    by_cases hc : c = '/'
    · simp only [splitSlash, if_pos hc, List.mem_cons] at hp
      rcases hp with h | h
      · simp [h]
      · exact ih p h
    · simp only [splitSlash, if_neg hc] at hp
      cases hsp : splitSlash rest with
      | nil => exact absurd hsp (splitSlash_ne_nil rest)
      | cons a t =>
        rw [hsp] at hp
        rcases List.mem_cons.mp hp with h | h
        · subst h
          intro hmem
          rcases List.mem_cons.mp hmem with h | h
          · exact hc h.symm
          · exact ih a (hsp ▸ List.mem_cons_self ..) h
        · exact ih p (hsp ▸ List.mem_cons_of_mem _ h)

lemma splitSlash_cons_slash (rest : List Char) :
    splitSlash ('/' :: rest) = [] :: splitSlash rest := by
  simp [splitSlash]

lemma splitSlash_no_slash_eq (x : List Char) (hx : '/' ∉ x) :
    splitSlash x = [x] := by
  induction x with
  | nil => rfl
  | cons c rest ih =>
    have hc : c ≠ '/' := fun h => hx (h ▸ List.mem_cons_self ..)
    have hrest : '/' ∉ rest := fun h => hx (List.mem_cons_of_mem _ h)
    simp only [splitSlash, if_neg hc, ih hrest]

lemma splitSlash_append (x : List Char) (r : List Char) (hx : '/' ∉ x) :
    splitSlash (x ++ '/' :: r) = x :: splitSlash r := by
  induction x with
  | nil => simp [splitSlash_cons_slash]
  | cons c tail ih =>
    have hc : c ≠ '/' := fun h => hx (h ▸ List.mem_cons_self ..)
    have htail : '/' ∉ tail := fun h => hx (List.mem_cons_of_mem _ h)
    simp only [List.cons_append, splitSlash, if_neg hc]
    rw [show tail.append ('/' :: r) = tail ++ '/' :: r from rfl, ih htail]

lemma splitSlash_joinSlash :
    ∀ l : List (List Char), l ≠ [] → (∀ p ∈ l, '/' ∉ p) →
      splitSlash (joinSlash l) = l := by
  intro l
  induction l with
  | nil => intro h _; exact absurd rfl h
  | cons x t ih =>
    intro _ hps
    cases t with
    | nil =>
      simp only [joinSlash]
      exact splitSlash_no_slash_eq x (hps x (List.mem_cons_self ..))
    | cons y t2 =>
      simp only [joinSlash]
      rw [splitSlash_append x _ (hps x (List.mem_cons_self ..))]
      rw [ih (by simp) (fun p hp => hps p (List.mem_cons_of_mem _ hp))]

/-! ## Lemmas: the component fold of `resolve_path` -/

lemma compStep_head (acc : List (List Char)) (c : List Char) (h : acc ≠ []) :
    compStep acc c ≠ [] ∧ (compStep acc c).head? = acc.head? := by
  unfold compStep
  by_cases h1 : c = ['.']
  · simp [h1, h]
  · by_cases h2 : c = ['.', '.'] ∧ 1 < acc.length
    · rw [if_neg h1, if_pos h2]
      obtain ⟨a, b, t, rfl⟩ : ∃ a b t, acc = a :: b :: t := by
        cases acc with
        | nil => exact absurd rfl h
        | cons a t =>
          cases t with
          | nil => simp at h2
          | cons b t2 => exact ⟨a, b, t2, rfl⟩
      constructor
      · simp [List.dropLast]
      · rfl
    · rw [if_neg h1, if_neg h2]
      constructor
      · simp
      · cases acc with
        | nil => exact absurd rfl h
        | cons a t => rfl

lemma compStep_mem (acc : List (List Char)) (c : List Char) (x : List Char)
    (hx : x ∈ compStep acc c) : x ∈ acc ∨ x = c := by
  unfold compStep at hx
  by_cases h1 : c = ['.']
  · rw [if_pos h1] at hx; exact Or.inl hx
  · by_cases h2 : c = ['.', '.'] ∧ 1 < acc.length
    · rw [if_neg h1, if_pos h2] at hx
      exact Or.inl (List.dropLast_subset acc hx)
    · rw [if_neg h1, if_neg h2] at hx
      rcases List.mem_append.mp hx with h | h
      · exact Or.inl h
      · simp at h; exact Or.inr h

lemma compStep_good (acc : List (List Char)) (c : List Char) (hg : GoodAcc acc) :
    GoodAcc (compStep acc c) := by
  obtain ⟨hhead, hdot, hdd⟩ := hg
  have hne : acc ≠ [] := by
    intro h; rw [h] at hhead; cases hhead
  have hstep := compStep_head acc c hne
  refine ⟨hstep.2.trans hhead, ?_, ?_⟩
  · intro x hx
    unfold compStep at hx
    by_cases h1 : c = ['.']
    · rw [if_pos h1] at hx; exact hdot x hx
    · by_cases h2 : c = ['.', '.'] ∧ 1 < acc.length
      · rw [if_neg h1, if_pos h2] at hx
        exact hdot x (List.dropLast_subset acc hx)
      · rw [if_neg h1, if_neg h2] at hx
        rcases List.mem_append.mp hx with h | h
        · exact hdot x h
        · simp at h; subst h; exact h1
  · intro x hx
    unfold compStep at hx
    by_cases h1 : c = ['.']
    · rw [if_pos h1] at hx; exact hdd x hx
    · by_cases h2 : c = ['.', '.'] ∧ 1 < acc.length
      · rw [if_neg h1, if_pos h2] at hx
        have : x ∈ acc.drop 2 := by
          rw [List.dropLast_eq_take] at hx
          rw [List.drop_take] at hx
          exact List.mem_of_mem_take hx
        exact hdd x this
      · rw [if_neg h1, if_neg h2] at hx
        by_cases hlen : 2 ≤ acc.length
        · rw [List.drop_append_of_le_length hlen] at hx
          rcases List.mem_append.mp hx with h | h
          · exact hdd x h
          · simp at h
            subst h
            intro hcdd
            exact h2 ⟨hcdd, by omega⟩
        · have h1len : acc.length = 1 := by
            cases acc with
            | nil => exact absurd rfl hne
            | cons a t =>
              simp at hlen
              simp [hlen]
          have : (acc ++ [c]).length = 2 := by simp [h1len]
          rw [List.drop_eq_nil_of_le (by omega)] at hx
          cases hx

lemma foldl_compStep_good :
    ∀ (cs : List (List Char)) (acc : List (List Char)), GoodAcc acc →
      GoodAcc (List.foldl compStep acc cs) := by
  intro cs
  induction cs with
  | nil => intro acc h; exact h
  | cons c rest ih =>
    intro acc h
    exact ih (compStep acc c) (compStep_good acc c h)

lemma foldl_compStep_mem :
    ∀ (cs : List (List Char)) (acc : List (List Char)) (x : List Char),
      x ∈ List.foldl compStep acc cs → x ∈ acc ∨ x ∈ cs := by
  intro cs
  induction cs with
  | nil => intro acc x h; exact Or.inl h
  | cons c rest ih =>
    intro acc x h
    rcases ih (compStep acc c) x h with h1 | h1
    · rcases compStep_mem acc c x h1 with h2 | h2
      · exact Or.inl h2
      · exact Or.inr (h2 ▸ List.mem_cons_self ..)
    · exact Or.inr (List.mem_cons_of_mem _ h1)

lemma foldl_compStep_plain :
    ∀ (ms : List (List Char)) (acc : List (List Char)),
      (∀ x ∈ ms, x ≠ ['.'] ∧ x ≠ ['.', '.']) →
      List.foldl compStep acc ms = acc ++ ms := by
  intro ms
  induction ms with
  | nil => intro acc _; simp
  | cons m rest ih =>
    intro acc hm
    have hm1 := hm m (List.mem_cons_self ..)
    have hstep : compStep acc m = acc ++ [m] := by
      unfold compStep
      rw [if_neg hm1.1, if_neg (fun h => hm1.2 h.1)]
    simp only [List.foldl_cons, hstep]
    rw [ih (acc ++ [m]) (fun x hx => hm x (List.mem_cons_of_mem _ hx))]
    simp

lemma foldComps_stable (l : List (List Char)) (hg : GoodAcc l) :
    foldComps l = l := by
  obtain ⟨hhead, hdot, hdd⟩ := hg
  obtain ⟨m, rfl⟩ : ∃ m, l = [] :: m := by
    cases l with
    | nil => cases hhead
    | cons a t =>
      obtain rfl : a = [] := by simpa using hhead
      exact ⟨t, rfl⟩
  cases m with
  | nil => rfl
  | cons m0 mt =>
    have hstep0 : compStep [] [] = [[]] := rfl
    have hm0dot : m0 ≠ ['.'] := hdot m0 (by simp)
    have hstep1 : compStep [[]] m0 = [[], m0] := by
      unfold compStep
      rw [if_neg hm0dot, if_neg (by simp)]
      rfl
    show List.foldl compStep [] ([] :: m0 :: mt) = [] :: m0 :: mt
    simp only [List.foldl_cons, hstep0, hstep1]
    rw [foldl_compStep_plain mt [[], m0] ?_]
    · rfl
    · intro x hx
      exact ⟨hdot x (by simp [hx]), hdd x (by simpa using hx)⟩

lemma finishPath_eq_single (e : List Char) (x : List Char)
    (h : foldComps (splitSlash e) = [x]) : finishPath e = x ++ ['/'] := by
  unfold finishPath
  rw [h]

lemma finishPath_eq_join (e : List Char) (a b : List Char) (t : List (List Char))
    (h : foldComps (splitSlash e) = a :: b :: t) :
    finishPath e = joinSlash (a :: b :: t) := by
  unfold finishPath
  rw [h]

lemma finishPath_root (e : List Char) (he : e.head? = some '/') :
    (finishPath e).head? = some '/' ∧ finishPath (finishPath e) = finishPath e := by
  obtain ⟨t, rfl⟩ : ∃ t, e = '/' :: t := by
    cases e with
    | nil => cases he
    | cons c t =>
      obtain rfl : c = '/' := by simpa using he
      exact ⟨t, rfl⟩
  have hsplit : splitSlash ('/' :: t) = [] :: splitSlash t := splitSlash_cons_slash t
  have hfold : foldComps ([] :: splitSlash t) =
      List.foldl compStep [[]] (splitSlash t) := by
    show List.foldl compStep [] ([] :: splitSlash t) = _
    simp only [List.foldl_cons]
    rfl
  have hgood : GoodAcc (foldComps (splitSlash ('/' :: t))) := by
    rw [hsplit, hfold]
    exact foldl_compStep_good (splitSlash t) [[]] ⟨rfl, by simp, by simp⟩
  have hslashfree : ∀ x ∈ foldComps (splitSlash ('/' :: t)), '/' ∉ x := by
    intro x hx
    rw [hsplit, hfold] at hx
    rcases foldl_compStep_mem (splitSlash t) [[]] x hx with h | h
    · simp at h; simp [h]
    · exact splitSlash_no_slash t x h
  have hhead := hgood.1
  cases hnc : foldComps (splitSlash ('/' :: t)) with
  | nil => rw [hnc] at hhead; cases hhead
  | cons a t' =>
    obtain rfl : a = [] := by rw [hnc] at hhead; simpa using hhead
    cases t' with
    | nil =>
      have h1 : finishPath ('/' :: t) = ['/'] := by
        rw [finishPath_eq_single _ [] hnc]
        rfl
      rw [h1]
      exact ⟨rfl, by decide⟩
    | cons b t2 =>
      have h1 : finishPath ('/' :: t) = joinSlash ([] :: b :: t2) :=
        finishPath_eq_join _ [] b t2 hnc
      have hjoin : joinSlash ([] :: b :: t2) = '/' :: joinSlash (b :: t2) := rfl
      constructor
      · rw [h1, hjoin]; rfl
      · rw [h1]
        have hsf : ∀ x ∈ ([] :: b :: t2 : List (List Char)), '/' ∉ x := by
          intro x hx
          exact hslashfree x (hnc ▸ hx)
        have hrt : splitSlash (joinSlash ([] :: b :: t2)) = [] :: b :: t2 :=
          splitSlash_joinSlash _ (by simp) hsf
        have hstable : foldComps ([] :: b :: t2) = [] :: b :: t2 := by
          apply foldComps_stable
          rw [← hnc]
          exact hgood
        apply finishPath_eq_join
        rw [hrt, hstable]

/-! ## Lemmas: decimal rendering and registry -/

lemma digitChar_val : ∀ n, n < 10 → (digitChar n).toNat - 48 = n := by
  decide

lemma digitsVal_concat (xs : List Char) (d : Char) :
    digitsVal (xs ++ [d]) = 10 * digitsVal xs + (d.toNat - 48) := by
  simp [digitsVal, List.foldl_append]

lemma digitsVal_single (d : Char) : digitsVal [d] = d.toNat - 48 := by
  simp [digitsVal]

lemma natToCharsGo_val : ∀ fuel n, n ≤ fuel → digitsVal (natToCharsGo fuel n) = n := by
  intro fuel
  induction fuel with
  | zero =>
    intro n hn
    obtain rfl : n = 0 := by omega
    simp [natToCharsGo, digitsVal_single, digitChar_val 0 (by omega)]
  | succ f ih =>
    intro n hn
    by_cases h10 : n < 10
    · simp [natToCharsGo, h10, digitsVal_single, digitChar_val n h10]
    · have hdiv : n / 10 ≤ f := by omega
      simp only [natToCharsGo, if_neg h10]
      rw [digitsVal_concat, ih (n / 10) hdiv, digitChar_val (n % 10) (by omega)]
      omega

lemma natToChars_inj (m n : Nat) (h : natToChars m = natToChars n) : m = n := by
  have hm := natToCharsGo_val m m (le_refl _)
  have hn := natToCharsGo_val n n (le_refl _)
  rw [natToChars] at h
  rw [natToChars] at h
  rw [← hm, ← hn, h]

lemma collisionNames_length (b : List Char) :
    ∀ n, (collisionNames b n).length = n := by
  intro n
  induction n using Nat.strong_induction_on with
  | _ n ih =>
    match n with
    | 0 => rfl
    | 1 => rfl
    | m + 2 =>
      simp only [collisionNames, List.length_append, ih (m + 1) (by omega)]
      rfl

lemma collisionNames_mem (b : List Char) :
    ∀ n x, x ∈ collisionNames b n →
      x = b ∨ ∃ k, 2 ≤ k ∧ k ≤ n ∧ x = b ++ '-' :: natToChars k := by
  intro n
  induction n using Nat.strong_induction_on with
  | _ n ih =>
    match n with
    | 0 => intro x hx; cases hx
    | 1 =>
      intro x hx
      simp only [collisionNames, List.mem_singleton] at hx
      exact Or.inl hx
    | m + 2 =>
      intro x hx
      simp only [collisionNames] at hx
      rcases List.mem_append.mp hx with h | h
      · rcases ih (m + 1) (by omega) x h with h1 | ⟨k, hk1, hk2, hk3⟩
        · exact Or.inl h1
        · exact Or.inr ⟨k, hk1, by omega, hk3⟩
      · simp only [List.mem_singleton] at h
        exact Or.inr ⟨m + 2, by omega, le_refl _, h⟩

lemma collisionNames_pairwise (b : List Char) :
    ∀ n, (collisionNames b n).Pairwise (fun x y => x ≠ y) := by
  intro n
  induction n using Nat.strong_induction_on with
  | _ n ih =>
    match n with
    | 0 => exact List.Pairwise.nil
    | 1 => exact List.Pairwise.cons (by intro y hy; cases hy) List.Pairwise.nil
    | m + 2 =>
      simp only [collisionNames]
      rw [List.pairwise_append]
      refine ⟨ih (m + 1) (by omega), by simp, ?_⟩
      intro x hx y hy
      simp only [List.mem_singleton] at hy
      subst hy
      rcases collisionNames_mem b (m + 1) x hx with h | ⟨k, hk1, hk2, hk3⟩
      · subst h
        intro hcontra
        have := congrArg List.length hcontra
        simp at this
      · subst hk3
        intro hcontra
        have h1 := List.append_cancel_left hcontra
        have h2 : natToChars k = natToChars (m + 2) := by
          simpa using h1
        have := natToChars_inj k (m + 2) h2
        omega

lemma collisionNames_head (b : List Char) :
    ∀ n, 1 ≤ n → (collisionNames b n).head? = some b := by
  intro n
  induction n using Nat.strong_induction_on with
  | _ n ih =>
    match n with
    | 0 => intro h; omega
    | 1 => intro _; rfl
    | m + 2 =>
      intro _
      simp only [collisionNames]
      have hlen : (collisionNames b (m + 1)).length = m + 1 := collisionNames_length b _
      cases hcn : collisionNames b (m + 1) with
      | nil => rw [hcn] at hlen; simp at hlen
      | cons a t =>
        have := ih (m + 1) (by omega) (by omega)
        rw [hcn] at this
        simp at this
        simp [this]

lemma collisionNames_get1 (b : List Char) :
    ∀ n, 2 ≤ n → (collisionNames b n)[1]? = some (b ++ '-' :: natToChars 2) := by
  intro n
  induction n using Nat.strong_induction_on with
  | _ n ih =>
    match n with
    | 0 => intro h; omega
    | 1 => intro h; omega
    | 2 => intro _; rfl
    | m + 3 =>
      intro _
      have hstep : collisionNames b (m + 3) =
          collisionNames b (m + 2) ++ [b ++ '-' :: natToChars (m + 3)] := rfl
      have hlen : (collisionNames b (m + 2)).length = m + 2 := collisionNames_length b _
      rw [hstep, List.getElem?_append_left (by omega)]
      exact ih (m + 2) (by omega) (by omega)

lemma add_device_no_old (st : RegistryState) (d : DevEntry)
    (hshort : ∀ t ∈ st.devs, t.short ≠ d.short) :
    add_device st d =
      (let newName := if (find_device_by_name st.dflt st.devs d.name).isSome
          then d.name ++ '-' :: natToChars st.idx else d.name
       let entry : DevEntry := ⟨d.short, newName, '/' :: (newName ++ ['/'])⟩
       { devs := st.devs ++ [entry]
         dflt := match st.dflt with | none => some entry | some t => some t
         idx := st.idx + 1 }) := by
  unfold add_device
  have h1 : st.devs.find? (fun t => t.short == d.short) = none := by
    rw [List.find?_eq_none]
    intro x hx
    simp only [beq_iff_eq]
    exact hshort x hx
  have h2 : st.devs.eraseP (fun t => t.short == d.short) = st.devs := by
    apply List.eraseP_of_forall_not
    intro x hx
    simp only [beq_iff_eq]
    exact hshort x hx
  rw [h1, h2]

lemma add_device_collision_step (b : List Char) (hb : b ≠ [])
    (st : RegistryState) (s : List Char) (k : Nat)
    (hname : st.devs.map DevEntry.name = collisionNames b k)
    (hidx : st.idx = k + 1)
    (hshort : ∀ t ∈ st.devs, t.short ≠ s) :
    (add_device st ⟨s, b, []⟩).devs.map DevEntry.name = collisionNames b (k + 1) ∧
    (add_device st ⟨s, b, []⟩).devs.map DevEntry.short =
      st.devs.map DevEntry.short ++ [s] ∧
    (add_device st ⟨s, b, []⟩).idx = (k + 1) + 1 ∧
    ∀ t ∈ (add_device st ⟨s, b, []⟩).devs,
      t ∈ st.devs ∨ t.name_path = '/' :: (t.name ++ ['/']) := by
  rw [add_device_no_old st ⟨s, b, []⟩ hshort]
  cases k with
  | zero =>
    have hdevs : st.devs = [] := List.map_eq_nil_iff.mp hname
    have hfind : find_device_by_name st.dflt st.devs b = none := by
      rw [find_device_by_name, if_neg hb, hdevs]
      rfl
    rw [if_neg (show ¬ ((find_device_by_name st.dflt st.devs b).isSome = true) by
      rw [hfind]; simp)]
    refine ⟨?_, ?_, ?_, ?_⟩
    · rw [hdevs]; rfl
    · rw [hdevs]; rfl
    · rw [hidx]
    · intro t ht
      simp only [List.nil_append, List.mem_singleton] at ht
      rcases List.mem_append.mp ht with h | h
      · exact Or.inl h
      · have := List.mem_singleton.mp h
        subst this
        exact Or.inr rfl
  | succ j =>
    have hhd : (collisionNames b (j + 1)).head? = some b :=
      collisionNames_head b (j + 1) (by omega)
    have hex : ∃ t ∈ st.devs, t.name = b := by
      cases hdevs : st.devs with
      | nil =>
        rw [hdevs] at hname
        rw [← hname] at hhd
        cases hhd
      | cons t0 ts =>
        rw [hdevs] at hname
        rw [← hname] at hhd
        simp only [List.map_cons, List.head?_cons, Option.some.injEq] at hhd
        exact ⟨t0, by simp [hdevs], hhd⟩
    have hfind : (find_device_by_name st.dflt st.devs b).isSome = true := by
      rw [find_device_by_name, if_neg hb]
      obtain ⟨t, ht, htn⟩ := hex
      rw [List.find?_isSome]
      exact ⟨t, ht, by simp [beq_iff_eq, htn]⟩
    rw [if_pos hfind]
    refine ⟨?_, ?_, ?_, ?_⟩
    · rw [List.map_append, hname, hidx]
      show collisionNames b (j + 1) ++ [b ++ '-' :: natToChars (j + 2)] =
        collisionNames b (j + 2)
      rfl
    · rw [List.map_append]
      rfl
    · rw [hidx]
    · intro t ht
      rcases List.mem_append.mp ht with h | h
      · exact Or.inl h
      · have := List.mem_singleton.mp h
        subst this
        exact Or.inr rfl

lemma registry_fold_spec (b : List Char) (hb : b ≠ []) :
    ∀ shorts : List (List Char), shorts.Pairwise (fun s t => s ≠ t) →
      ((List.foldl add_device initRegistry
          (shorts.map (fun s => ⟨s, b, []⟩))).devs.map DevEntry.name =
            collisionNames b shorts.length ∧
       (List.foldl add_device initRegistry
          (shorts.map (fun s => ⟨s, b, []⟩))).devs.map DevEntry.short = shorts ∧
       (List.foldl add_device initRegistry
          (shorts.map (fun s => ⟨s, b, []⟩))).idx = shorts.length + 1 ∧
       ∀ t ∈ (List.foldl add_device initRegistry
          (shorts.map (fun s => ⟨s, b, []⟩))).devs,
            t.name_path = '/' :: (t.name ++ ['/'])) := by
  intro shorts
  induction shorts using List.reverseRecOn with
  | nil =>
    intro _
    exact ⟨rfl, rfl, rfl, fun t ht => by cases ht⟩
  | append_singleton ss s ih =>
    intro hpw
    rw [List.pairwise_append] at hpw
    obtain ⟨hpss, _, hcross⟩ := hpw
    obtain ⟨ihname, ihshort, ihidx, ihpath⟩ := ih hpss
    have hfold : List.foldl add_device initRegistry
        ((ss ++ [s]).map (fun s => ⟨s, b, []⟩)) =
        add_device (List.foldl add_device initRegistry
          (ss.map (fun s => ⟨s, b, []⟩))) ⟨s, b, []⟩ := by
      rw [List.map_append, List.foldl_append]
      rfl
    have hshort : ∀ t ∈ (List.foldl add_device initRegistry
        (ss.map (fun s => ⟨s, b, []⟩))).devs, t.short ≠ s := by
      intro t ht
      have : t.short ∈ ss := by
        rw [← ihshort]
        exact List.mem_map_of_mem _ ht
      exact hcross t.short this s (List.mem_singleton_self _)
    obtain ⟨h1, h2, h3, h4⟩ :=
      add_device_collision_step b hb _ s ss.length ihname ihidx hshort
    rw [hfold]
    refine ⟨?_, ?_, ?_, ?_⟩
    · rw [h1]
      congr 1
      simp
    · rw [h2, ihshort]
    · rw [h3]
      simp
    · intro t ht
      rcases h4 t ht with h | h
      · exact ihpath t h
      · exact h

/-! ## Lemmas: remove_file -/

mutual
theorem remove_file_force_true : ∀ (o : FsObj) (r : Bool), remove_file o r true = true
  | FsObj.missing, _ => rfl
  | FsObj.file ok, _ => by simp [remove_file]
  | FsObj.dir ch rmdirOk, r => by
    have hch := removeChildrenLoop_force_true ch r
    simp [remove_file, hch]
theorem removeChildrenLoop_force_true :
    ∀ (ch : FsChildren) (r : Bool), removeChildrenLoop ch r true = true
  | FsChildren.nil, _ => rfl
  | FsChildren.cons c rest, r => by
    have := removeChildrenLoop_force_true rest r
    simp [removeChildrenLoop, this]
end

/-! ## Lemmas: resolve_path -/

lemma resolve_path_aux_rooted (cur q r : List Char) (hcur : cur.head? = some '/')
    (h : resolve_path_aux cur q = some r) :
    r.head? = some '/' ∧ finishPath r = r := by
  obtain ⟨cur', rfl⟩ : ∃ t, cur = '/' :: t := by
    cases cur with
    | nil => cases hcur
    | cons c t =>
      obtain rfl : c = '/' := by simpa using hcur
      exact ⟨t, rfl⟩
  cases q with
  | nil => simp [resolve_path_aux] at h
  | cons c1 q' =>
    simp only [resolve_path_aux] at h
    by_cases hc1 : c1 = '/'
    · rw [if_pos hc1] at h
      obtain rfl : finishPath (c1 :: q') = r := Option.some.inj h
      have := finishPath_root (c1 :: q') (by simp [hc1])
      exact ⟨this.1, this.2⟩
    · rw [if_neg hc1] at h
      cases hl : ('/' :: cur').getLast? with
      | none =>
        rw [hl] at h
        cases h
      | some cl =>
        rw [hl] at h
        obtain rfl : finishPath (if cl = '/' then ('/' :: cur') ++ (c1 :: q')
            else ('/' :: cur') ++ '/' :: (c1 :: q')) = r := Option.some.inj h
        have he : (if cl = '/' then ('/' :: cur') ++ (c1 :: q')
            else ('/' :: cur') ++ '/' :: (c1 :: q')).head? = some '/' := by
          by_cases hcl : cl = '/'
          · rw [if_pos hcl]; rfl
          · rw [if_neg hcl]; rfl
        have := finishPath_root _ he
        exact ⟨this.1, this.2⟩

/-! ## Claim theorems -/

/-- Claim C1, counterexample to the claim as stated.  The claim asserts
transfer fidelity for every chunk size in both binary and hex modes; at
chunk size `BUFFER_SIZE = 3` (odd) in hex mode with a 2-byte file the
sender emits wire chunks of `2 * (3 / 2) = 2` bytes, while the receiver's
first chunk waits for `min(2 * 2, 3) = 3` wire bytes, one more than the
sender will send before its ACK: the transfer deadlocks (`none`) and
delivers nothing, even under an admissible partial-read schedule. -/
theorem transfer_fidelity_counterexample :
    List.Forall₂ (fun ps r => (ps : List Nat).sum = r) [[3], [1]]
      (recvSizes 3 false 2) ∧
    transferResult false 3 [0, 0] [[3], [1]] = none ∧
    transferResult false 3 [0, 0] [[3], [1]] ≠ some [0, 0] := by
  decide

/-- Claim C1 (amended): running a sender (`send_file_to_remote` /
`send_file_to_host`) against the matching receiver (`recv_file_from_host`
/ `recv_file_from_remote`) delivers exactly the file bytes, in order,
with no duplicates and no gaps, for every partial-read schedule of the
receiver's inner reassembly loop — in binary mode for every positive
chunk size, and in hex mode for every even chunk size `≥ 2` (odd chunk
sizes deadlock in hex mode, see the counterexample). -/
theorem transfer_fidelity_amended :
    ∀ (hasBuffer : Bool) (bufferSize : Nat) (B : List Nat)
      (scheds : List (List Nat)),
      (∀ b ∈ B, b < 256) →
      (hasBuffer = true → 0 < bufferSize) →
      (hasBuffer = false → 2 ≤ bufferSize ∧ bufferSize % 2 = 0) →
      List.Forall₂ (fun ps r => (ps : List Nat).sum = r) scheds
        (recvSizes bufferSize hasBuffer B.length) →
      transferResult hasBuffer bufferSize B scheds = some B := by
  intro hasBuffer bufferSize B scheds hbytes h1 h2 hsched
  exact transferResult_eq hasBuffer bufferSize B scheds hbytes h1 h2 hsched

/-- Concrete instance of the amended claim C1: a hex-mode transfer of
`[0, 255]` at chunk size 4 with a three-piece partial-read schedule. -/
theorem transfer_fidelity_amended_witness :
    (∀ b ∈ [0, 255], b < 256) ∧
    List.Forall₂ (fun ps r => (ps : List Nat).sum = r) [[1, 2, 1]]
      (recvSizes 4 false 2) ∧
    transferResult false 4 [0, 255] [[1, 2, 1]] = some [0, 255] :=
  ⟨by decide, by decide,
    transfer_fidelity_amended false 4 [0, 255] [[1, 2, 1]] (by decide)
      (by decide) (by decide) (by decide)⟩

/-- Claim C2, counterexample to the claim as stated.  When `follow`
fails (spec 4.2: non-empty board error stream raises `RemoteException`),
`Device.remote` has no wrapper around the exec/follow pair, so
`exit_raw_repl` never runs and the channel is left open in raw mode —
neither friendly nor closed. -/
theorem remote_raw_state_counterexample :
    (remoteCall ⟨false, false, FollowCase.remoteExc⟩).state.closed = false ∧
    (remoteCall ⟨false, false, FollowCase.remoteExc⟩).state.raw = true ∧
    (remoteCall ⟨false, false, FollowCase.remoteExc⟩).exitRawRan = false := by
  decide

/-- Claim C2 (amended): after a remote call that returns normally or is
interrupted by `DeviceError` (from `check_pyb`, or from `Device.read` /
`Device.write` inside the transfer function — paths that close the
device), the channel is friendly or closed; `exit_raw_repl` runs exactly
on the normal return path, not on every exit path.  When `follow` fails
with a remote exception the channel is left raw and open. -/
theorem remote_raw_state_amended :
    ∀ s : RemoteScenario,
      (s.followCase ≠ FollowCase.remoteExc →
        ((remoteCall s).state.closed = true ∨ (remoteCall s).state.raw = false)) ∧
      ((remoteCall s).exitRawRan = true ↔
        (remoteCall s).outcome = RemoteOutcome.returned) := by
  intro s
  rcases s with ⟨c, x, f⟩
  cases c <;> cases x <;> cases f <;>
    refine ⟨fun h => ?_, by decide⟩ <;>
    first
      | exact absurd rfl h
      | decide

/-- Concrete instance of the amended claim C2: a fault-free call leaves
the channel friendly. -/
theorem remote_raw_state_amended_witness :
    (RemoteScenario.mk false false FollowCase.ok).followCase ≠
      FollowCase.remoteExc ∧
    ((remoteCall ⟨false, false, FollowCase.ok⟩).state.closed = true ∨
      (remoteCall ⟨false, false, FollowCase.ok⟩).state.raw = false) :=
  ⟨by decide, (remote_raw_state_amended ⟨false, false, FollowCase.ok⟩).1 (by decide)⟩

/-- Claim C3, counterexample to the claim as stated.  The claim asserts
that `..` never moves the result above the root and that `/a/../..`
resolves to a path within the root; the code resolves it to the literal
string `/..`, which keeps a `..` component naming the parent of the
root.  It also asserts idempotence for every non-empty current
directory; with the relative current directory `c`, resolving `x` gives
`c/x` but resolving `c/x` gives `c/c/x`. -/
theorem resolve_path_counterexample :
    resolve_path (fun q => q) ['/'] ['/', 'a', '/', '.', '.', '/', '.', '.'] =
      some ['/', '.', '.'] ∧
    ['.', '.'] ∈ splitSlash ['/', '.', '.'] ∧
    resolve_path (fun q => q) ['c'] ['x'] = some ['c', '/', 'x'] ∧
    resolve_path (fun q => q) ['c'] ['c', '/', 'x'] =
      some ['c', '/', 'c', '/', 'x'] := by
  decide

/-- Claim C3 (amended): with an absolute current directory (leading
`/`), `resolve_path` is idempotent; its result always keeps the leading
root component (it starts with `/`, so `..` never pops the root), though
a `..` arriving at root level survives literally (see the
counterexample); and `~` is consulted only when it is the first
character of the path — the expanduser function is irrelevant
otherwise. -/
theorem resolve_path_amended :
    (∀ (exp : List Char → List Char) (cur p r : List Char),
      cur.head? = some '/' → resolve_path exp cur p = some r →
      resolve_path exp cur r = some r ∧ r.head? = some '/') ∧
    (∀ (f g : List Char → List Char) (cur p : List Char),
      p.head? ≠ some '~' → resolve_path f cur p = resolve_path g cur p) := by
  constructor
  · intro exp cur p r hcur hres
    cases p with
    | nil => simp [resolve_path] at hres
    | cons c0 p' =>
      simp only [resolve_path] at hres
      obtain ⟨hhead, hfix⟩ := resolve_path_aux_rooted cur _ r hcur hres
      refine ⟨?_, hhead⟩
      obtain ⟨r', rfl⟩ : ∃ t, r = '/' :: t := by
        cases r with
        | nil => cases hhead
        | cons a t =>
          obtain rfl : a = '/' := by simpa using hhead
          exact ⟨t, rfl⟩
      simp only [resolve_path]
      rw [if_neg (by decide : ¬('/' : Char) = '~')]
      simp only [resolve_path_aux]
      simp [hfix]
  · intro f g cur p hp
    cases p with
    | nil => rfl
    | cons c0 p' =>
      have hc0 : ¬ c0 = '~' := fun h => hp (by simp [h])
      simp only [resolve_path, if_neg hc0]

/-- Concrete instance of the amended claim C3: `/a/./b` resolves to
`/a/b`, which resolves to itself, and a path not starting with `~` gets
the same result for any two expanduser functions. -/
theorem resolve_path_amended_witness :
    ((['/'] : List Char).head? = some '/' ∧
     resolve_path (fun q => q) ['/'] ['/', 'a', '/', '.', '/', 'b'] =
       some ['/', 'a', '/', 'b']) ∧
    (resolve_path (fun q => q) ['/'] ['/', 'a', '/', 'b'] =
        some ['/', 'a', '/', 'b'] ∧
      (['/', 'a', '/', 'b'] : List Char).head? = some '/') ∧
    resolve_path (fun _ => ['X']) ['/'] ['a'] =
      resolve_path (fun _ => ['Y']) ['/'] ['a'] :=
  ⟨⟨by decide, by decide⟩,
    resolve_path_amended.1 (fun q => q) ['/'] ['/', 'a', '/', '.', '/', 'b']
      ['/', 'a', '/', 'b'] (by decide) (by decide),
    resolve_path_amended.2 (fun _ => ['X']) (fun _ => ['Y']) ['/'] ['a'] (by decide)⟩

/-- Claim C4: routing of `get_dev_and_path`.  A path claimed by one of
the default device's root directories routes to the default device
unchanged; otherwise the first registered device whose mount prefix
`name_path` matches claims the path with the prefix stripped (the bare
mount name becoming `/`); otherwise the path routes to the host
(`none`) unchanged.  Exactly one of host or a specific device is chosen,
and the S3 scenario examples hold. -/
theorem get_dev_and_path_routing :
    (∀ (dflt : Option RegDevice) (devs : List RegDevice) (f : List Char)
        (d : RegDevice),
      dflt = some d → is_root_path d f = true →
      get_dev_and_path dflt devs f = (some d, f)) ∧
    (∀ (dflt : Option RegDevice) (devs : List RegDevice) (f : List Char)
        (dev : RegDevice) (sfx : List Char),
      (∀ d, dflt = some d → is_root_path d f = false) →
      devs.find? (fun t => t.name_path.isPrefixOf (f ++ ['/'])) = some dev →
      f = dev.name_path.dropLast ++ sfx →
      get_dev_and_path dflt devs f =
        (some dev, if sfx = [] then ['/'] else sfx)) ∧
    (∀ (dflt : Option RegDevice) (devs : List RegDevice) (f : List Char),
      (∀ d, dflt = some d → is_root_path d f = false) →
      devs.find? (fun t => t.name_path.isPrefixOf (f ++ ['/'])) = none →
      get_dev_and_path dflt devs f = (none, f)) ∧
    (get_dev_and_path (some pyboardDev) [pyboardDev, espDev]
        ['/', 'f', 'l', 'a', 's', 'h', '/', 'x'] =
      (some pyboardDev, ['/', 'f', 'l', 'a', 's', 'h', '/', 'x']) ∧
     get_dev_and_path (some pyboardDev) [pyboardDev, espDev]
        ['/', 'e', 's', 'p', '/', 'm', 'a', 'i', 'n', '.', 'p', 'y'] =
      (some espDev, ['/', 'm', 'a', 'i', 'n', '.', 'p', 'y']) ∧
     get_dev_and_path (some pyboardDev) [pyboardDev, espDev]
        ['/', 'e', 't', 'c', '/', 'h', 'o', 's', 't', 's'] =
      (none, ['/', 'e', 't', 'c', '/', 'h', 'o', 's', 't', 's']) ∧
     get_dev_and_path (some pyboardDev) [pyboardDev, espDev]
        ['/', 'e', 's', 'p'] = (some espDev, ['/'])) := by
  refine ⟨?_, ?_, ?_, by decide⟩
  · intro dflt devs f d hd hroot
    subst hd
    simp [get_dev_and_path, hroot]
  · intro dflt devs f dev sfx hnd hfind hsuf
    have hdf : f.drop (dev.name_path.length - 1) = sfx := by
      rw [hsuf, ← List.length_dropLast, List.drop_left]
    cases dflt with
    | none => simp [get_dev_and_path, hfind, hdf]
    | some d =>
      have hd := hnd d rfl
      simp [get_dev_and_path, hd, hfind, hdf]
  · intro dflt devs f hnd hfind
    cases dflt with
    | none => simp [get_dev_and_path, hfind]
    | some d =>
      have hd := hnd d rfl
      simp [get_dev_and_path, hd, hfind]

/-- Concrete instance of claim C4's default-device clause: `/sd/x` is
claimed by the default device's `/sd/` root directory. -/
theorem get_dev_and_path_routing_witness :
    is_root_path pyboardDev ['/', 's', 'd', '/', 'x'] = true ∧
    get_dev_and_path (some pyboardDev) [pyboardDev, espDev]
      ['/', 's', 'd', '/', 'x'] = (some pyboardDev, ['/', 's', 'd', '/', 'x']) :=
  ⟨by decide,
    get_dev_and_path_routing.1 (some pyboardDev) [pyboardDev, espDev]
      ['/', 's', 'd', '/', 'x'] pyboardDev rfl (by decide)⟩

/-- Claim C5, counterexample to the claim as stated.  The claim says a
non-ACK byte received while waiting for the ACK is forwarded to the
user's stderr; the source (line 624) writes it with
`sys.stdout.write(chr(ord(char)))`, i.e. to stdout.  With device
response `[88, 6]` the byte 88 appears as a stdout event and no stderr
event exists in the trace. -/
theorem send_ack_stdout_counterexample :
    sendFileTrace true 512 [65] [88, 6] =
      some ([XferEvent.devWrite [65], XferEvent.stdoutByte 88], true) ∧
    XferEvent.stdoutByte 88 ∈
      [XferEvent.devWrite [65], XferEvent.stdoutByte 88] ∧
    XferEvent.stderrByte 88 ∉
      [XferEvent.devWrite [65], XferEvent.stdoutByte 88] := by
  decide

/-- Claim C5 (amended): after writing a chunk, `send_file_to_remote`
blocks until it reads the ACK byte 0x06 and writes no later chunk before
that ACK arrives: the number of chunk writes is capped at one more than
the number of ACKs the device delivers, and the loop completes exactly
when every chunk is acknowledged.  Every non-ACK byte read while waiting
is forwarded to the user's stdout (not stderr — see the counterexample)
and the wait continues; there is no NAK path and no stderr event at
all. -/
theorem send_ack_pacing_amended :
    ∀ (hasBuffer : Bool) (bufferSize : Nat) (B : List Nat) (resp : List Nat),
      0 < sendPayloadBuf hasBuffer bufferSize →
      ∃ tr done, sendFileTrace hasBuffer bufferSize B resp = some (tr, done) ∧
        devWriteCount tr =
          min ((splitChunks (sendPayloadBuf hasBuffer bufferSize) B).length)
            (resp.count 6 + 1) ∧
        (done = true ↔
          (splitChunks (sendPayloadBuf hasBuffer bufferSize) B).length ≤
            resp.count 6) ∧
        (∀ c, XferEvent.stderrByte c ∉ tr) ∧
        (∀ c, XferEvent.stdoutByte c ∈ tr → c ≠ 6 ∧ c ∈ resp) := by
  intro hasBuffer bufferSize B resp hpb
  have hno : ¬ (sendPayloadBuf hasBuffer bufferSize = 0 ∧ B ≠ []) :=
    fun h => by omega
  obtain ⟨h1, h2, h3, h4⟩ := sendTraceGo_spec
    ((splitChunks (sendPayloadBuf hasBuffer bufferSize) B).map
      (encodeChunk hasBuffer)) resp
  refine ⟨(sendTraceGo ((splitChunks (sendPayloadBuf hasBuffer bufferSize) B).map
      (encodeChunk hasBuffer)) resp).1,
    (sendTraceGo ((splitChunks (sendPayloadBuf hasBuffer bufferSize) B).map
      (encodeChunk hasBuffer)) resp).2, ?_, ?_, ?_, h3, h4⟩
  · simp [sendFileTrace, hno]
  · rw [h1, List.length_map]
  · rw [h2, List.length_map]

/-- Concrete instance of the amended claim C5: one chunk, one stray
byte, one ACK. -/
theorem send_ack_pacing_amended_witness :
    0 < sendPayloadBuf true 512 ∧
    (∃ tr done, sendFileTrace true 512 [65] [88, 6] = some (tr, done) ∧
      devWriteCount tr =
        min ((splitChunks (sendPayloadBuf true 512) [65]).length)
          (([88, 6] : List Nat).count 6 + 1) ∧
      (done = true ↔
        (splitChunks (sendPayloadBuf true 512) [65]).length ≤
          ([88, 6] : List Nat).count 6) ∧
      (∀ c, XferEvent.stderrByte c ∉ tr) ∧
      (∀ c, XferEvent.stdoutByte c ∈ tr → c ≠ 6 ∧ c ∈ [88, 6])) :=
  ⟨by decide, send_ack_pacing_amended true 512 [65] [88, 6] (by decide)⟩

/-- Claim C6 (code bug): the spec's stat layout has 10 positional fields
`(mode, ino, dev, nlink, uid, gid, size, atime, mtime, ctime)`, and the
success branch of `get_stat` passes through the 10-field tuple of
`os.stat` (time-shifted when `IS_UPY`); but the `OSError` branch
(line 421) returns the literal `(0, 0, 0, 0, 0, 0, 0, 0)`, which has
only 8 elements — `stat_mtime` (index 8) and index 9 are missing for a
nonexistent file. -/
theorem get_stat_error_branch_eight :
    (get_stat true TIME_OFFSET none).length = 8 ∧
    (get_stat false TIME_OFFSET none).length = 8 ∧
    (get_stat true TIME_OFFSET
      (some [33188, 2, 3, 1, 0, 0, 1024, 800, 900, 1000])).length = 10 ∧
    (get_stat false TIME_OFFSET
      (some [33188, 2, 3, 1, 0, 0, 1024, 800, 900, 1000])).length = 10 := by
  decide

/-- Claim C7: after N sequential `add_device` calls for devices that all
report the same bare board name `b` and have pairwise distinct short
names, the stored display names are exactly
`b, b-2, b-3, …, b-N` — pairwise distinct, the first keeping the bare
name and the second receiving suffix `-2` — and every device's mount
prefix is `/name/`; since the statement holds for every N, display-name
uniqueness is preserved by every add in the scenario. -/
theorem add_device_collision_unique :
    ∀ (b : List Char) (shorts : List (List Char)),
      b ≠ [] → shorts.Pairwise (fun s t => s ≠ t) →
      ((List.foldl add_device initRegistry
          (shorts.map (fun s => ⟨s, b, []⟩))).devs.map DevEntry.name =
        collisionNames b shorts.length ∧
       (collisionNames b shorts.length).Pairwise (fun x y => x ≠ y) ∧
       (1 ≤ shorts.length → (collisionNames b shorts.length).head? = some b) ∧
       (2 ≤ shorts.length →
         (collisionNames b shorts.length)[1]? = some (b ++ '-' :: natToChars 2)) ∧
       (List.foldl add_device initRegistry
          (shorts.map (fun s => ⟨s, b, []⟩))).devs.map DevEntry.name_path =
         (collisionNames b shorts.length).map (fun nm => '/' :: (nm ++ ['/']))) := by
  intro b shorts hb hpw
  obtain ⟨hname, hshort, hidx, hpath⟩ := registry_fold_spec b hb shorts hpw
  refine ⟨hname, collisionNames_pairwise b _,
    fun h => collisionNames_head b _ h,
    fun h => collisionNames_get1 b _ h, ?_⟩
  rw [← hname, List.map_map]
  exact List.map_congr_left (fun t ht => hpath t ht)

/-- Concrete instance of claim C7: two devices reporting `pyboard` get
display names `pyboard` and `pyboard-2` with mount prefixes `/pyboard/`
and `/pyboard-2/`. -/
theorem add_device_collision_unique_witness :
    (collisionNames ['p', 'y', 'b', 'o', 'a', 'r', 'd'] 2 =
      [['p', 'y', 'b', 'o', 'a', 'r', 'd'],
       ['p', 'y', 'b', 'o', 'a', 'r', 'd', '-', '2']] ∧
     (List.foldl add_device initRegistry
        ([[ 'a'], ['b']].map
          (fun s => ⟨s, ['p', 'y', 'b', 'o', 'a', 'r', 'd'], []⟩))).devs.map
        DevEntry.name_path =
      [['/', 'p', 'y', 'b', 'o', 'a', 'r', 'd', '/'],
       ['/', 'p', 'y', 'b', 'o', 'a', 'r', 'd', '-', '2', '/']]) ∧
    ((List.foldl add_device initRegistry
        ([[ 'a'], ['b']].map
          (fun s => ⟨s, ['p', 'y', 'b', 'o', 'a', 'r', 'd'], []⟩))).devs.map
        DevEntry.name =
      collisionNames ['p', 'y', 'b', 'o', 'a', 'r', 'd']
        ([[ 'a'], ['b']] : List (List Char)).length ∧
     (collisionNames ['p', 'y', 'b', 'o', 'a', 'r', 'd']
        ([[ 'a'], ['b']] : List (List Char)).length).Pairwise
          (fun x y => x ≠ y) ∧
     (1 ≤ ([[ 'a'], ['b']] : List (List Char)).length →
       (collisionNames ['p', 'y', 'b', 'o', 'a', 'r', 'd']
          ([[ 'a'], ['b']] : List (List Char)).length).head? =
        some ['p', 'y', 'b', 'o', 'a', 'r', 'd']) ∧
     (2 ≤ ([[ 'a'], ['b']] : List (List Char)).length →
       (collisionNames ['p', 'y', 'b', 'o', 'a', 'r', 'd']
          ([[ 'a'], ['b']] : List (List Char)).length)[1]? =
        some (['p', 'y', 'b', 'o', 'a', 'r', 'd'] ++
          '-' :: natToChars 2)) ∧
     (List.foldl add_device initRegistry
        ([[ 'a'], ['b']].map
          (fun s => ⟨s, ['p', 'y', 'b', 'o', 'a', 'r', 'd'], []⟩))).devs.map
        DevEntry.name_path =
      (collisionNames ['p', 'y', 'b', 'o', 'a', 'r', 'd']
        ([[ 'a'], ['b']] : List (List Char)).length).map
          (fun nm => '/' :: (nm ++ ['/']))) :=
  ⟨⟨by decide, by decide⟩,
    add_device_collision_unique ['p', 'y', 'b', 'o', 'a', 'r', 'd']
      [[ 'a'], ['b']] (by decide) (by decide)⟩

/-- Claim C8: on-wire arithmetic of the senders.  In binary mode every
payload chunk is at most `BUFFER_SIZE` bytes and the total on-wire
payload equals `filesize`; in hex mode every payload chunk is at most
`BUFFER_SIZE / 2` bytes so that each hex-encoded chunk is at most
`BUFFER_SIZE` bytes on the wire, and the total on-wire byte count equals
`2 * filesize`. -/
theorem send_wire_arithmetic :
    ∀ (hasBuffer : Bool) (bufferSize : Nat) (B : List Nat),
      0 < sendPayloadBuf hasBuffer bufferSize →
      ∃ wire, sendFileWire hasBuffer bufferSize B = some wire ∧
        wire = (splitChunks (sendPayloadBuf hasBuffer bufferSize) B).map
          (encodeChunk hasBuffer) ∧
        (∀ c ∈ splitChunks (sendPayloadBuf hasBuffer bufferSize) B,
          c.length ≤ sendPayloadBuf hasBuffer bufferSize) ∧
        (∀ w ∈ wire, w.length ≤ bufferSize) ∧
        (wire.map List.length).sum =
          (if hasBuffer then B.length else 2 * B.length) := by
  intro hasBuffer bufferSize B hpb
  have hno : ¬ (sendPayloadBuf hasBuffer bufferSize = 0 ∧ B ≠ []) :=
    fun h => by omega
  have hjoin : (splitChunks (sendPayloadBuf hasBuffer bufferSize) B).flatten = B :=
    splitChunksGo_flatten _ hpb B.length B (le_refl _)
  have hsum : ((splitChunks (sendPayloadBuf hasBuffer bufferSize) B).map
      List.length).sum = B.length := by
    rw [← List.length_flatten, hjoin]
  refine ⟨_, by simp [sendFileWire, hno], rfl, ?_, ?_, ?_⟩
  · intro c hc
    exact (splitChunksGo_mem _ hpb B.length B c hc).2.1
  · intro w hw
    obtain ⟨p, hp, rfl⟩ := List.mem_map.mp hw
    have hple := (splitChunksGo_mem _ hpb B.length B p hp).2.1
    cases hasBuffer with
    | true =>
      rw [encodeChunk_true]
      rw [sendPayloadBuf_true] at hple
      exact hple
    | false =>
      rw [encodeChunk_false, hexlify_length]
      rw [sendPayloadBuf_false] at hple
      omega
  · cases hasBuffer with
    | true =>
      rw [if_pos rfl, ← hsum]
      congr 1
      rw [List.map_map]
      exact List.map_congr_left (fun c _ => rfl)
    | false =>
      rw [if_neg (by simp)]
      rw [List.map_map]
      have hcomp : (splitChunks (sendPayloadBuf false bufferSize) B).map
          (List.length ∘ encodeChunk false) =
          (splitChunks (sendPayloadBuf false bufferSize) B).map
            (fun c => 2 * c.length) := by
        refine List.map_congr_left ?_
        intro c _
        simp [Function.comp, encodeChunk_false, hexlify_length]
      rw [hcomp]
      have hdouble : ∀ l : List (List Nat),
          (l.map (fun c => 2 * c.length)).sum = 2 * (l.map List.length).sum := by
        intro l
        induction l with
        | nil => rfl
        | cons x xs ih => simp [ih]; omega
      rw [hdouble, hsum]

/-- Concrete instance of claim C8: hex mode at chunk size 5 splits
`[1, 2, 3]` into payload chunks of at most 2 bytes, wire chunks of at
most 5 bytes, 6 bytes on the wire in total. -/
theorem send_wire_arithmetic_witness :
    0 < sendPayloadBuf false 5 ∧
    (∃ wire, sendFileWire false 5 [1, 2, 3] = some wire ∧
      wire = (splitChunks (sendPayloadBuf false 5) [1, 2, 3]).map
        (encodeChunk false) ∧
      (∀ c ∈ splitChunks (sendPayloadBuf false 5) [1, 2, 3],
        c.length ≤ sendPayloadBuf false 5) ∧
      (∀ w ∈ wire, w.length ≤ 5) ∧
      (wire.map List.length).sum =
        (if false then ([1, 2, 3] : List Nat).length
         else 2 * ([1, 2, 3] : List Nat).length)) :=
  ⟨by decide, send_wire_arithmetic false 5 [1, 2, 3] (by decide)⟩

/-- Claim C9: `resolve_path` is partial at the public interface.  On the
empty string it hits the `path[0]` IndexError (modelled `none`) instead
of returning a resolved path; for a non-empty path, a non-empty current
directory, and an expanduser that maps non-empty strings to non-empty
strings, every string indexing is in bounds and a result is returned. -/
theorem resolve_path_partiality :
    (∀ (exp : List Char → List Char) (cur : List Char),
      resolve_path exp cur [] = none) ∧
    (∀ (exp : List Char → List Char) (cur p : List Char),
      p ≠ [] → cur ≠ [] → (∀ q, q ≠ [] → exp q ≠ []) →
      (resolve_path exp cur p).isSome = true) := by
  constructor
  · intro exp cur
    rfl
  · intro exp cur p hp hcur hexp
    cases p with
    | nil => exact absurd rfl hp
    | cons c0 p' =>
      simp only [resolve_path]
      have hqne : (if c0 = '~' then exp (c0 :: p') else c0 :: p') ≠ [] := by
        by_cases h : c0 = '~'
        · rw [if_pos h]
          exact hexp _ (by simp)
        · rw [if_neg h]
          simp
      cases hq : (if c0 = '~' then exp (c0 :: p') else c0 :: p') with
      | nil => exact absurd hq hqne
      | cons c1 q' =>
        simp only [resolve_path_aux]
        by_cases hc1 : c1 = '/'
        · rw [if_pos hc1]
          rfl
        · rw [if_neg hc1]
          cases hl : cur.getLast? with
          | none =>
            have := List.getLast?_isSome.mpr hcur
            rw [hl] at this
            cases this
          | some cl => rfl

/-- Concrete instance of claim C9's totality clause. -/
theorem resolve_path_partiality_witness :
    ((['a'] : List Char) ≠ [] ∧ (['/'] : List Char) ≠ []) ∧
    (resolve_path (fun q => q) ['/'] ['a']).isSome = true :=
  ⟨⟨by decide, by decide⟩,
    resolve_path_partiality.2 (fun q => q) ['/'] ['a'] (by decide) (by decide)
      (fun _ hq => hq)⟩

/-- Claim C10: `remove_file`'s force flag swallows all failures — with
`force = True` it returns `True` for every filesystem shape (missing
path, failing unlink, failing rmdir, failing recursive children), and
with `force = False` it returns `False` whenever `os.stat` or the
deletion of the named object raises. -/
theorem remove_file_force_flag :
    (∀ (o : FsObj) (r : Bool), remove_file o r true = true) ∧
    (∀ (o : FsObj) (r : Bool), shallowRaises o = true →
      remove_file o r false = false) := by
  refine ⟨remove_file_force_true, ?_⟩
  intro o r h
  cases o with
  | missing => rfl
  | file ok =>
    simp [shallowRaises] at h
    simp [remove_file, h]
  | dir ch rmdirOk =>
    simp [shallowRaises] at h
    cases r with
    | false => simp [remove_file, h]
    | true =>
      cases hl : removeChildrenLoop ch true false with
      | false => simp [remove_file, hl]
      | true => simp [remove_file, hl, h]

/-- Concrete instance of claim C10: a directory whose rmdir fails, with
a child whose unlink fails. -/
theorem remove_file_force_flag_witness :
    shallowRaises (FsObj.dir (FsChildren.cons (FsObj.file false) FsChildren.nil)
      false) = true ∧
    remove_file (FsObj.dir (FsChildren.cons (FsObj.file false) FsChildren.nil)
      false) true true = true ∧
    remove_file (FsObj.dir (FsChildren.cons (FsObj.file false) FsChildren.nil)
      false) true false = false :=
  ⟨by decide,
    remove_file_force_flag.1
      (FsObj.dir (FsChildren.cons (FsObj.file false) FsChildren.nil) false) true,
    remove_file_force_flag.2
      (FsObj.dir (FsChildren.cons (FsObj.file false) FsChildren.nil) false) true
      (by decide)⟩
